import Mathlib

/-!
Verification development for the codebox sandbox package: a shallow
embedding, in Lean 4, of the exclusion matcher, the archive codec
(tar extraction and creation) and the Docker/local execution
orchestrators, together with theorems settling the specification's
claims about them.

Strings are modelled as `List Char` (one element per rune; the Go code
operates on UTF-8 bytes, which agrees with the rune view on all the
ASCII metacharacters the algorithms inspect).
-/

namespace Codebox

/-- Rune-level model of a Go string. -/
abbrev Str := List Char

/-- Convert a Lean string literal to the `Str` model. -/
def str (s : String) : Str := s.toList

/-! ## Models of the Go standard-library string and path helpers used
by the sandbox package. -/

/-- Models `strings.Split(s, "/")`: split at every separator, keeping
empty fields. -/
def splitSl : Str → List Str
  | [] => [[]]
  | c :: rest =>
    if c = '/' then [] :: splitSl rest
    else
      match splitSl rest with
      | [] => [[c]]
      | s :: ss => (c :: s) :: ss

/-- Join segments with the path separator (inverse of `splitSl` on
separator-free segments). -/
def joinSegs : List Str → Str
  | [] => []
  | [s] => s
  | s :: rest => s ++ '/' :: joinSegs rest

/-- Models `strings.HasSuffix(s, suffix)`. -/
def hasSuffixSl (s suffix : Str) : Bool := suffix.isSuffixOf s

/-- Models `strings.HasPrefix(s, pre)`. -/
def hasPrefixSl (s pre : Str) : Bool := pre.isPrefixOf s

/-- Models `strings.TrimSuffix(s, suffix)`. -/
def trimSuffixSl (s suffix : Str) : Str :=
  if hasSuffixSl s suffix then s.take (s.length - suffix.length) else s

/-- Models `strings.Contains(s, sub)`: does `sub` occur as a
contiguous substring of `s`? -/
def containsSl : Str → Str → Bool
  | [], sub => sub.isEmpty
  | c :: rest, sub => sub.isPrefixOf (c :: rest) || containsSl rest sub

/-- Models `path/filepath.Base` (unix): strip trailing separators,
then keep everything after the last separator; empty input gives
`"."`, an all-separator input gives `"/"`. -/
def goBase (p : Str) : Str :=
  if p = [] then ['.']
  else
    let q := (p.reverse.dropWhile (fun c => c = '/')).reverse
    if q = [] then ['/']
    else (q.reverse.takeWhile (fun c => c ≠ '/')).reverse

/-! ## Model of Go `path/filepath.Match` (unix build).

`goMatch pattern name` returns `.error ()` exactly where Go returns
`ErrBadPattern`, and `.ok b` where Go returns `(b, nil)`.  The
decomposition into `scanChunk` / `matchChunk` / `getEsc` mirrors the
Go implementation. -/

/-- Models `getEsc`: one possibly-escaped literal inside a character
class. Errors on an empty chunk, a leading `-` or `]`, a dangling
escape, or a class that ends without `]`.  (The remainder is returned
together with the bound on its length that the recursion in
`parseClass` and `matchChunk` needs.) -/
def getEsc : (chunk : Str) → Except Unit (Char × {rest : Str // rest.length < chunk.length})
  | [] => .error ()
  | c :: rest =>
    if c = '-' ∨ c = ']' then .error ()
    else if c = '\\' then
      match rest with
      | [] => .error ()
      | r :: rest2 =>
        if rest2 = [] then .error ()
        else .ok (r, ⟨rest2, by simp only [List.length_cons]; omega⟩)
    else if rest = [] then .error ()
    else .ok (c, ⟨rest, by simp only [List.length_cons]; omega⟩)

/-- Models the character-class loop inside `matchChunk`: parse ranges
until the closing `]`, recording whether rune `r` fell in any range. -/
def parseClass (r : Char) (chunk : Str) (seenRange matched : Bool) :
    Except Unit (Bool × {rest : Str // rest.length < chunk.length}) :=
  if hbr : chunk.head? = some ']' ∧ seenRange then
    .ok (matched, ⟨chunk.tail, by
      obtain ⟨hc, _⟩ := hbr
      cases chunk with
      | nil => simp at hc
      | cons a t => simp⟩)
  else
    match getEsc chunk with
    | .error _ => .error ()
    | .ok (lo, ⟨c1, h1⟩) =>
      if c1.head? = some '-' then
        match getEsc c1.tail with
        | .error _ => .error ()
        | .ok (hi, ⟨c2, h2⟩) =>
          match parseClass r c2 true (matched || (lo ≤ r && r ≤ hi)) with
          | .error _ => .error ()
          | .ok (b, ⟨rest, hr⟩) =>
            .ok (b, ⟨rest, by
              have h3 : c1.tail.length ≤ c1.length := by cases c1 <;> simp
              omega⟩)
      else
        match parseClass r c1 true (matched || (lo ≤ r && r ≤ lo)) with
        | .error _ => .error ()
        | .ok (b, ⟨rest, hr⟩) => .ok (b, ⟨rest, by omega⟩)
  termination_by chunk.length
  decreasing_by
    · have h3 : c1.tail.length ≤ c1.length := by cases c1 <;> simp
      omega
    · omega

/-- Models `matchChunk`: match a star-free chunk against the front of
`s`; on success return the unconsumed remainder of `s`.  The `failed`
flag mirrors Go's: once the match has failed the loop keeps consuming
the chunk purely to validate its syntax. -/
def matchChunk : Str → Str → Bool → Except Unit (Str × Bool)
  | [], s, failed => if failed then .ok ([], false) else .ok (s, true)
  | c :: rest, s, failed0 =>
    let failed := failed0 || s.isEmpty
    if c = '[' then
      let r := if failed then Char.ofNat 0 else s.headD (Char.ofNat 0)
      let s' := if failed then s else s.tail
      let negated := rest.head? = some '^'
      let chunk1 := if negated then rest.tail else rest
      match parseClass r chunk1 false false with
      | .error _ => .error ()
      | .ok (m, ⟨chunk2, h2⟩) => matchChunk chunk2 s' (failed || (m = negated))
    else if c = '?' then
      let failed' := failed || (!failed && (s.headD (Char.ofNat 0) = '/'))
      let s' := if failed then s else s.tail
      matchChunk rest s' failed'
    else if c = '\\' then
      match rest with
      | [] => .error ()
      | d :: rest2 =>
        let failed' := failed || (!failed && (s.headD (Char.ofNat 0) ≠ d))
        let s' := if failed then s else s.tail
        matchChunk rest2 s' failed'
    else
      let failed' := failed || (!failed && (s.headD (Char.ofNat 0) ≠ c))
      let s' := if failed then s else s.tail
      matchChunk rest s' failed'
  termination_by chunk _ _ => chunk.length
  decreasing_by
    · have hc1 : chunk1.length ≤ rest.length := by
        simp only [chunk1]
        split
        · cases rest <;> simp
        · simp
      simp only [List.length_cons]
      omega
    · simp only [List.length_cons]
      omega
    · simp only [List.length_cons]
      omega
    · simp only [List.length_cons]
      omega

/-- Models the `Scan` loop of `scanChunk`: collect characters up to
the next unbracketed `*`. -/
def scanBody : Bool → Str → Str × Str
  | _, [] => ([], [])
  | inrange, c :: rest =>
    if c = '*' ∧ ¬inrange then ([], c :: rest)
    else if c = '\\' then
      match rest with
      | [] => ([c], [])
      | d :: rest2 =>
        let p := scanBody inrange rest2
        (c :: d :: p.1, p.2)
    else
      let inr := if c = '[' then true else if c = ']' then false else inrange
      let p := scanBody inr rest
      (c :: p.1, p.2)

theorem length_dropWhile_le (p : Char → Bool) (l : Str) :
    (l.dropWhile p).length ≤ l.length := by
  induction l with
  | nil => simp [List.dropWhile]
  | cons c rest ih =>
    rw [List.dropWhile]
    split
    · simp only [List.length_cons]
      omega
    · simp

theorem scanBody_nil (b : Bool) : scanBody b [] = ([], []) := rfl

theorem scanBody_cons (b : Bool) (c : Char) (rest : Str) :
    scanBody b (c :: rest) =
      if c = '*' ∧ ¬b then ([], c :: rest)
      else if c = '\\' then
        match rest with
        | [] => ([c], [])
        | d :: rest2 => (c :: d :: (scanBody b rest2).1, (scanBody b rest2).2)
      else
        (c :: (scanBody (if c = '[' then true else if c = ']' then false else b) rest).1,
         (scanBody (if c = '[' then true else if c = ']' then false else b) rest).2) := by
  rw [scanBody.eq_def]
  rfl

theorem scanBody_length_aux :
    ∀ (n : Nat) (b : Bool) (l : Str), l.length ≤ n →
      (scanBody b l).2.length ≤ l.length := by
  intro n
  induction n with
  | zero =>
    intro b l hl
    cases l with
    | nil => simp [scanBody_nil]
    | cons c rest => simp at hl
  | succ n ih =>
    intro b l hl
    cases l with
    | nil => simp [scanBody_nil]
    | cons c rest =>
      rw [scanBody_cons]
      split
      · simp
      · split
        · cases rest with
          | nil => simp
          | cons d rest2 =>
            have hr : rest2.length ≤ n := by
              simp only [List.length_cons] at hl
              omega
            have := ih b rest2 hr
            simp only [List.length_cons]
            omega
        · have hr : rest.length ≤ n := by
            simp only [List.length_cons] at hl
            omega
          have := ih (if c = '[' then true else if c = ']' then false else b) rest hr
          simp only [List.length_cons]
          omega

theorem scanBody_length (b : Bool) (l : Str) :
    (scanBody b l).2.length ≤ l.length :=
  scanBody_length_aux l.length b l le_rfl

/-- Models `scanChunk`: strip leading stars, then scan one chunk. -/
def scanChunk (pattern : Str) : Bool × Str × Str :=
  let star := pattern.head? = some '*'
  let p := pattern.dropWhile (fun c => c = '*')
  let sb := scanBody false p
  (star, sb.1, sb.2)

theorem scanChunk_length {pattern : Str} (h : pattern ≠ []) :
    (scanChunk pattern).2.2.length < pattern.length := by
  match pattern with
  | [] => exact absurd rfl h
  | c :: rest =>
    simp only [scanChunk]
    by_cases hc : c = '*'
    · have hd : (c :: rest).dropWhile (fun c => c = '*') =
          rest.dropWhile (fun c => c = '*') := by
        simp [List.dropWhile, hc]
      rw [hd]
      have h1 := scanBody_length false (rest.dropWhile (fun c => c = '*'))
      have h2 : (rest.dropWhile (fun c => c = '*')).length ≤ rest.length :=
        length_dropWhile_le _ rest
      simp only [List.length_cons]
      omega
    · have hd : (c :: rest).dropWhile (fun c => c = '*') = c :: rest := by
        simp [List.dropWhile, hc]
      rw [hd, scanBody_cons]
      rw [if_neg (by simp [hc])]
      by_cases hb : c = '\\'
      · rw [if_pos hb]
        cases rest with
        | nil => simp
        | cons d rest2 =>
          simp only [List.length_cons]
          have := scanBody_length false rest2
          omega
      · rw [if_neg hb]
        simp only [List.length_cons]
        have := scanBody_length (if c = '[' then true else if c = ']' then false else false) rest
        omega

/-- Models the star-search inner loop of `Match`: try to place the
chunk at successive positions of `name` (never skipping past a
separator).  Returns the remainder to continue with, if any position
matched. -/
def starLoop (chunk pat : Str) : Str → Except Unit (Option Str)
  | [] => .ok none
  | c :: rest =>
    if c = '/' then .ok none
    else
      match matchChunk chunk rest false with
      | .error _ => .error ()
      | .ok (t, true) =>
        if pat = [] ∧ t ≠ [] then starLoop chunk pat rest
        else .ok (some t)
      | .ok (_, false) => starLoop chunk pat rest
  termination_by l => l.length

/-- Models the final syntax-validation loop of `Match`: after a failed
match, the rest of the pattern is still checked for well-formedness. -/
def validateRest (pat : Str) : Except Unit Unit :=
  if h : pat = [] then .ok ()
  else
    let sc := scanChunk pat
    match matchChunk sc.2.1 [] false with
    | .error _ => .error ()
    | .ok _ => validateRest sc.2.2
  termination_by pat.length
  decreasing_by
    exact scanChunk_length h

/-- Models `path/filepath.Match` (unix). -/
def goMatch (pattern name : Str) : Except Unit Bool :=
  if h : pattern = [] then .ok name.isEmpty
  else
    let sc := scanChunk pattern
    let star := sc.1
    let chunk := sc.2.1
    let rest := sc.2.2
    if star ∧ chunk = [] then
      .ok (!name.contains '/')
    else
      match matchChunk chunk name false with
      | .error _ => .error ()
      | .ok (t, ok) =>
        if ok ∧ (t = [] ∨ rest ≠ []) then goMatch rest t
        else
          if star then
            match starLoop chunk rest name with
            | .error _ => .error ()
            | .ok (some t2) => goMatch rest t2
            | .ok none =>
              match validateRest rest with
              | .error _ => .error ()
              | .ok _ => .ok false
          else
            match validateRest rest with
            | .error _ => .error ()
            | .ok _ => .ok false
  termination_by pattern.length
  decreasing_by
    · exact scanChunk_length h
    · exact scanChunk_length h

/-! ## Model of the exclusion matcher (`shouldExcludeFile`). -/

/-- Models `isCommonDirectoryName`: membership in the static table of
conventional directory names. -/
def isCommonDirectoryName (name : Str) : Bool :=
  name == str (r"node_modules") || name == str (r"__pycache__") ||
  name == str (r".git") || name == str (r".svn") || name == str (r".hg") ||
  name == str (r"build") || name == str (r"dist") || name == str (r"target") ||
  name == str (r"bin") || name == str (r"obj") || name == str (r"vendor") ||
  name == str (r".pytest_cache")

/-- Models the `err == nil && match` use of `filepath.Match` in
`shouldExcludeFile`: a malformed pattern counts as no match. -/
def matchOrFalse (pattern name : Str) : Bool :=
  match goMatch pattern name with
  | .ok b => b
  | .error _ => false

/-- The body of `shouldExcludeFile`'s loop for a single pattern:
`continue` for the common-directory tie-break, the directory-pattern
branch for patterns with a trailing separator, and the glob branch
otherwise. -/
def patternExcludes (relPath pattern : Str) : Bool :=
  if relPath == pattern && !(hasSuffixSl pattern ['/']) &&
      isCommonDirectoryName pattern then
    false
  else if hasSuffixSl pattern ['/'] then
    let dirPattern := trimSuffixSl pattern ['/']
    relPath == dirPattern || hasPrefixSl relPath (dirPattern ++ ['/']) ||
      (splitSl relPath).contains dirPattern
  else
    matchOrFalse pattern (goBase relPath) || matchOrFalse pattern relPath

/-- Models `shouldExcludeFile`: any pattern matching excludes. -/
def shouldExcludeFile (relPath : Str) (excludePatterns : List Str) : Bool :=
  excludePatterns.any (patternExcludes relPath)

/-! ## Models of `path/filepath.Clean`, `Join`, `Dir`, `IsAbs` (unix).

`goClean` implements Clean's documented lexical algorithm (collapse
separators, drop `.` elements, resolve `..` against a preceding
element, drop `..` at the root) with an explicit segment stack kept in
reverse order, which is how Clean's lazybuf loop behaves. -/

/-- A segment that Clean's loop emits or walks over: neither the empty
segment (collapsed separator) nor `.`. -/
def goodSeg (s : Str) : Bool := !(s == []) && !(s == ['.'])

/-- One step of Clean's element loop on the reversed output stack. -/
def cleanStep (rooted : Bool) (rs : List Str) (seg : Str) : List Str :=
  if seg = str (r"..") then
    match rs with
    | t :: rest =>
      if rooted then rest
      else if t = str (r"..") then seg :: rs
      else rest
    | [] => if rooted then [] else [seg]
  else seg :: rs

/-- Models `path/filepath.Clean` (unix). -/
def goClean (p : Str) : Str :=
  if p = [] then ['.']
  else
    let rooted := decide (p.head? = some '/')
    let segs := (splitSl p).filter goodSeg
    let stack := (segs.foldl (cleanStep rooted) []).reverse
    if rooted then
      if stack = [] then ['/'] else '/' :: joinSegs stack
    else
      if stack = [] then ['.'] else joinSegs stack

/-- Models `path/filepath.IsAbs` (unix). -/
def goIsAbs (p : Str) : Bool := hasPrefixSl p ['/']

/-- Models `path/filepath.Join` for two elements: empty elements are
skipped and the joined string is cleaned. -/
def goJoin (a b : Str) : Str :=
  if a = [] then (if b = [] then [] else goClean b)
  else goClean (a ++ '/' :: b)

/-- Models `path/filepath.Dir`: everything up to and including the
final separator, cleaned; `"."` if there is no separator. -/
def goDir (p : Str) : Str :=
  goClean ((p.reverse.dropWhile (fun c => c ≠ '/')).reverse)

/-! ## Model of the archive codec.

The gzip/tar byte framing is the standard library's concern; the
extractor and creator are modelled on the decoded entry stream that
`tar.Reader`/`tar.Writer` present: a list of headers with name, type
flag and (for regular files) content. -/

/-- Tar entry type flags as `ExtractTarToDir` distinguishes them. -/
inductive TypeFlag where
  | dir : TypeFlag
  | reg : TypeFlag
  | other : Char → TypeFlag
deriving DecidableEq

/-- A decoded tar entry: header name, type flag, and file content
(whose length is the header size). -/
structure TarEntry where
  name : Str
  typeflag : TypeFlag
  content : List UInt8
deriving DecidableEq

/-- Filesystem mutations the extractor performs, in order. -/
inductive FsOp where
  | mkdirAll : Str → FsOp
  | writeFile : Str → List UInt8 → FsOp
deriving DecidableEq

/-- The error cases of `ExtractTarToDir`, each carrying the offending
header name or type flag exactly as the `fmt.Errorf` calls do. -/
inductive TarErr where
  | unsafeRelPath : Str → TarErr
  | invalidFilePath : Str → TarErr
  | absolutePath : Str → TarErr
  | unsupportedType : Char → TarErr
deriving DecidableEq

/-- Models `ExtractTarToDir` on the decoded entry stream.  Returns the
filesystem operations applied, in order, and the error that aborted
the loop, if any.  (The injected `FileSystem`'s own failures are
environmental and not modelled; `io.ReadFull` of `header.Size` bytes
is the entry's content.) -/
def extractTarToDir (destDir : Str) : List TarEntry → List FsOp × Option TarErr
  | [] => ([], none)
  | e :: rest =>
    let cleanName := goClean e.name
    if containsSl cleanName (str (r"..")) then
      ([], some (.unsafeRelPath e.name))
    else
      let filePath := goJoin destDir cleanName
      if !(hasPrefixSl filePath destDir) then
        ([], some (.invalidFilePath e.name))
      else if goIsAbs e.name then
        ([], some (.absolutePath e.name))
      else
        match e.typeflag with
        | .dir =>
          let k := extractTarToDir destDir rest
          (.mkdirAll filePath :: k.1, k.2)
        | .reg =>
          let k := extractTarToDir destDir rest
          (.mkdirAll (goDir filePath) :: .writeFile filePath e.content :: k.1,
            k.2)
        | .other c => ([], some (.unsupportedType c))

mutual
/-- A directory tree as `filepath.Walk` visits it: regular files with
contents and directories with children in visiting order. -/
inductive FsTree where
  | file : Str → List UInt8 → FsTree
  | dir : Str → FsForest → FsTree

/-- The children of one directory, in `filepath.Walk`'s visiting
order. -/
inductive FsForest where
  | nil : FsForest
  | cons : FsTree → FsForest → FsForest
end

/-- The relative path of a child named `name` under prefix `pre`
(`filepath.Rel` of the walked path). -/
def relJoin (pre name : Str) : Str :=
  if pre == [] then name else pre ++ '/' :: name

mutual
/-- Models the `filepath.Walk` callback of
`CreateTarFromDirWithExcludes` on one subtree: excluded directories
are skipped whole (`filepath.SkipDir`), excluded files are omitted,
and every retained entry gets a header named by its relative path. -/
def walkTree (pre : Str) (pats : List Str) : FsTree → List TarEntry
  | .file name content =>
    if shouldExcludeFile (relJoin pre name) pats then []
    else [⟨relJoin pre name, .reg, content⟩]
  | .dir name children =>
    if shouldExcludeFile (relJoin pre name) pats then []
    else ⟨relJoin pre name, .dir, []⟩ ::
      walkForest (relJoin pre name) pats children

/-- `walkTree` over a sibling list, in order. -/
def walkForest (pre : Str) (pats : List Str) : FsForest → List TarEntry
  | .nil => []
  | .cons t rest => walkTree pre pats t ++ walkForest pre pats rest
end

/-- Models `CreateTarFromDirWithExcludes`: the entry stream produced
from the tree rooted at `srcDir` (whose own entry, `relPath == "."`,
the walk callback skips). -/
def createTarFromDirWithExcludes (root : FsForest) (pats : List Str) :
    List TarEntry :=
  walkForest [] pats root

/-- Models `CreateTarFromDir`. -/
def createTarFromDir (root : FsForest) : List TarEntry :=
  createTarFromDirWithExcludes root []

mutual
/-- The files of a subtree with their relative paths, in walk order. -/
def treeFiles (pre : Str) : FsTree → List (Str × List UInt8)
  | .file name content => [(relJoin pre name, content)]
  | .dir name children => forestFiles (relJoin pre name) children

/-- The files of a forest with their relative paths, in walk order. -/
def forestFiles (pre : Str) : FsForest → List (Str × List UInt8)
  | .nil => []
  | .cons t rest => treeFiles pre t ++ forestFiles pre rest
end

/-- A legal file-system entry name: nonempty, not `.` or `..`, and
containing no separator. -/
def validName (n : Str) : Bool :=
  !(n == []) && !(n == ['.']) && !(n == str (r"..")) && decide ('/' ∉ n)

/-- `validName` strengthened with freedom from `..` as a substring
(the extractor rejects names containing `..` anywhere). -/
def validNameNoDotDot (n : Str) : Bool :=
  validName n && !(containsSl n (str (r"..")))

mutual
/-- Every entry name in the subtree satisfies `p`. -/
def treeNamesOK (p : Str → Bool) : FsTree → Bool
  | .file name _ => p name
  | .dir name children => p name && forestNamesOK p children

/-- Every entry name in the forest satisfies `p`. -/
def forestNamesOK (p : Str → Bool) : FsForest → Bool
  | .nil => true
  | .cons t rest => treeNamesOK p t && forestNamesOK p rest
end

/-- The `writeFile` operations of a trace, in order. -/
def writeOps : List FsOp → List (Str × List UInt8)
  | [] => []
  | .mkdirAll _ :: rest => writeOps rest
  | .writeFile p c :: rest => (p, c) :: writeOps rest

/-- A parent-directory element occurs as one full path segment. -/
def hasDotDotSegment (s : Str) : Bool :=
  (splitSl s).contains (str (r".."))

/-- `p` stays at or below directory `d`. -/
def isDescendantOf (p d : Str) : Bool :=
  p == d || hasPrefixSl p (d ++ ['/'])

/-- The offence predicate of the path-safety claim: the cleaned name
has a parent-directory segment, or the raw name is absolute, or the
joined destination escapes `destDir`, or the entry type is neither
directory nor regular file. -/
def claimOffending (destDir : Str) (e : TarEntry) : Bool :=
  hasDotDotSegment (goClean e.name) || goIsAbs e.name ||
  !(isDescendantOf (goJoin destDir (goClean e.name)) destDir) ||
  (match e.typeflag with
   | .other _ => true
   | _ => false)

/-! ## Model of the execution orchestrators (DockerExecutor, LocalExecutor).

The filesystem, the command runner, the clock and the container
runtime are external; their responses for one request are collected in
an oracle record (`DockerEnv` / `LocalEnv`), and `Execute` is the
function from the request and that oracle to the returned result plus
the observable actions (cleanup, container stop, artifact packaging,
the constructed command line and the timeout installed on the
context). -/

/-- `LanguagePython` and friends. -/
def LanguagePython : Str := str (r"python")

def LanguageNodeJS : Str := str (r"nodejs")

def LanguageGo : Str := str (r"go")

def LanguageCPP : Str := str (r"cpp")

def FilenamePython : Str := str (r"main.py")

def FilenameNodeJS : Str := str (r"index.js")

def FilenameGo : Str := str (r"main.go")

def FilenameCPP : Str := str (r"main.cpp")

/-- `MaxArtifactSizeMul = 1024 * 1024`. -/
def MaxArtifactSizeMul : Int := 1024 * 1024

/-- Models `ExecuteRequest` (the `WorkdirTar` bytes already base64-decoded). -/
structure ExecuteRequest where
  Language : Str
  Code : Str
  WorkdirTar : List UInt8
  TimeoutSec : Int
  MemoryMB : Int
  Network : Bool
deriving DecidableEq

/-- Models `ExecuteResult`. -/
structure ExecuteResult where
  Stdout : Str
  Stderr : Str
  ExitCode : Int
  ArtifactsTar : List UInt8
deriving DecidableEq

/-- Models `Config` of the executors. -/
structure Config where
  TimeoutSec : Int
  MemoryMB : Int
  NetworkEnabled : Bool
  MaxArtifactSizeMB : Int
deriving DecidableEq

/-- Models `GetCodeFileName` (`.error` for an unsupported language). -/
def GetCodeFileName (language : Str) : Except Unit Str :=
  if language = LanguagePython then .ok FilenamePython
  else if language = LanguageNodeJS then .ok FilenameNodeJS
  else if language = LanguageGo then .ok FilenameGo
  else if language = LanguageCPP then .ok FilenameCPP
  else .error ()

/-- Models `GetRunCommand`. -/
def GetRunCommand (language : Str) : Except Unit Str :=
  if language = LanguagePython then .ok (str (r"python ") ++ FilenamePython)
  else if language = LanguageNodeJS then .ok (str (r"node ") ++ FilenameNodeJS)
  else if language = LanguageGo then
    .ok (str (r"go build -o app ") ++ FilenameGo ++ str (r" && ./app"))
  else if language = LanguageCPP then
    .ok (str (r"g++ -std=c++17 -O2 -o app ") ++ FilenameCPP ++ str (r" && ./app"))
  else .error ()

/-- Models `LanguageCodeConfig`. -/
structure LanguageCodeConfig where
  PrefixCode : Str
  PostfixCode : Str

/-- Models `LanguageCodeConfigs`. -/
structure LanguageCodeConfigs where
  Python : LanguageCodeConfig
  NodeJS : LanguageCodeConfig
  Go : LanguageCodeConfig
  CPP : LanguageCodeConfig

/-- Models `LanguageConfig`. -/
structure LanguageConfig where
  ExcludePatterns : List Str

/-- Models `LanguageConfigs`. -/
structure LanguageConfigs where
  Python : LanguageConfig
  NodeJS : LanguageConfig
  Go : LanguageConfig
  CPP : LanguageConfig

/-- Models `LanguageEnvironments` (each map possibly nil). -/
structure LanguageEnvironments where
  Python : Option (List (Str × Str))
  NodeJS : Option (List (Str × Str))
  Go : Option (List (Str × Str))
  CPP : Option (List (Str × Str))

/-- Models `ApplyHooks` (nil `codeConfigs` and unknown languages leave
the code unwrapped). -/
def ApplyHooks (language code : Str)
    (codeConfigs : Option LanguageCodeConfigs) : Str :=
  match codeConfigs with
  | none => code
  | some cc =>
    let pc :=
      if language = LanguagePython then cc.Python
      else if language = LanguageNodeJS then cc.NodeJS
      else if language = LanguageGo then cc.Go
      else if language = LanguageCPP then cc.CPP
      else ⟨[], []⟩
    pc.PrefixCode ++ code ++ pc.PostfixCode

/-- Models `GetEnvironmentVariables` (nil receiver or nil per-language
map give the empty map; unknown language errors). -/
def GetEnvironmentVariables (langEnvs : Option LanguageEnvironments)
    (language : Str) : Except Unit (List (Str × Str)) :=
  match langEnvs with
  | none => .ok []
  | some le =>
    if language = LanguagePython then .ok (le.Python.getD [])
    else if language = LanguageNodeJS then .ok (le.NodeJS.getD [])
    else if language = LanguageGo then .ok (le.Go.getD [])
    else if language = LanguageCPP then .ok (le.CPP.getD [])
    else .error ()

/-- Models `getLanguageImage`. -/
def getLanguageImage (language : Str) : Str :=
  if language = str (r"python") then str (r"python:3.11-slim")
  else if language = str (r"nodejs") then str (r"node:20-alpine")
  else if language = LanguageGo then str (r"golang:1.23-alpine")
  else if language = LanguageCPP then str (r"gcc:13")
  else str (r"alpine:latest")

/-- `fmt.Sprintf("%d", n)` for the flags built from the config. -/
def intToStr (n : Int) : Str := (toString n).toList

/-- The errors `DockerExecutor.Execute` / `LocalExecutor.Execute` can
return, in source order. -/
inductive ExecErr where
  | tempDir : ExecErr
  | workdir : ExecErr
  | extractWorkdir : ExecErr
  | invalidLanguage : ExecErr
  | writeCode : ExecErr
  | envVars : ExecErr
  | runCommandLookup : ExecErr
  | unsupportedLanguage : ExecErr
  | execFailed : ExecErr
  | createArtifacts : ExecErr
  | artifactsTooLarge : Int → Int → ExecErr
deriving DecidableEq

/-- Oracle for one `DockerExecutor.Execute` call: what the filesystem,
clock, command runner and container runtime answer. The artifact
archive is a function of the exclusion patterns the executor passes to
`CreateTarFromDirWithExcludes`. -/
structure DockerEnv where
  mkdirTempResult : Except Unit Str
  mkdirAllOk : Bool
  extractOk : Bool
  writeCodeOk : Bool
  containerName : Str
  runStdout : Str
  runStderr : Str
  runExitCode : Int
  runErr : Option Unit
  deadlineExceeded : Bool
  stopOk : Bool
  artifactsResult : List Str → Except Unit (List UInt8)

/-- The observable outcome of one `DockerExecutor.Execute` call. -/
structure DockerOutcome where
  result : Except ExecErr ExecuteResult
  cleanedUp : Bool
  stopAttempted : Bool
  packaged : Bool
  cmdArgs : List Str
  ctxTimeoutSec : Int

/-- The fixed security-oriented `docker run` flag set (source lines
building `cmdArgs`): memory from the executor's config. -/
def dockerBaseArgs (cfg : Config) (containerName workdirPath : Str) :
    List Str :=
  [str (r"docker"), str (r"run"),
   str (r"--name"), containerName,
   str (r"--rm"),
   str (r"-v"), workdirPath ++ str (r":/workdir"),
   str (r"--workdir"), str (r"/workdir"),
   str (r"--memory"), intToStr cfg.MemoryMB ++ ['m'],
   str (r"--network"), str (r"none"),
   str (r"--ulimit"), str (r"fsize=100000000"),
   str (r"--ulimit"), str (r"cpu=10"),
   str (r"--security-opt"), str (r"no-new-privileges:true"),
   str (r"--user"), str (r"nobody"),
   str (r"--cap-drop"), str (r"ALL")]

/-- The exclusion patterns the Docker executor selects for a
language. -/
def dockerExcludePatterns (langConfigs : Option LanguageConfigs)
    (language : Str) : List Str :=
  match langConfigs with
  | none => []
  | some lc =>
    if language = LanguagePython then lc.Python.ExcludePatterns
    else if language = LanguageNodeJS then lc.NodeJS.ExcludePatterns
    else if language = LanguageGo then lc.Go.ExcludePatterns
    else if language = LanguageCPP then lc.CPP.ExcludePatterns
    else []

/-- `DockerExecutor.Execute` after the temp directory exists (the
`defer RemoveAll` is applied by the `dockerExecute` wrapper). -/
def dockerExecuteBody (cfg : Config) (langEnvs : Option LanguageEnvironments)
    (langConfigs : Option LanguageConfigs)
    (langCodeConfigs : Option LanguageCodeConfigs)
    (env : DockerEnv) (req : ExecuteRequest) (tempDir : Str) : DockerOutcome :=
  let workdirPath := goJoin tempDir (str (r"workdir"))
  if ¬env.mkdirAllOk then ⟨.error .workdir, false, false, false, [], 0⟩
  else if req.WorkdirTar ≠ [] ∧ ¬env.extractOk then
    ⟨.error .extractWorkdir, false, false, false, [], 0⟩
  else
    match GetCodeFileName req.Language with
    | .error _ => ⟨.error .invalidLanguage, false, false, false, [], 0⟩
    | .ok codeFileName =>
      let finalCode := ApplyHooks req.Language req.Code langCodeConfigs
      let codeFilePath := goJoin workdirPath codeFileName
      if ¬env.writeCodeOk then ⟨.error .writeCode, false, false, false, [], 0⟩
      else
        let imageName := getLanguageImage req.Language
        let cmdArgs1 := dockerBaseArgs cfg env.containerName workdirPath
        let cmdArgs2 := cmdArgs1 ++
          (if cfg.NetworkEnabled then [str (r"--network"), str (r"bridge")]
           else [])
        match GetEnvironmentVariables langEnvs req.Language with
        | .error _ => ⟨.error .envVars, false, false, false, [], 0⟩
        | .ok envVars =>
          let cmdArgs3 := cmdArgs2 ++
            envVars.flatMap (fun kv => [str (r"-e"), kv.1 ++ '=' :: kv.2])
          let cmdArgs4 := cmdArgs3 ++ [imageName]
          match GetRunCommand req.Language with
          | .error _ => ⟨.error .runCommandLookup, false, false, false, [], 0⟩
          | .ok runCmd =>
            let cmdArgs5 := cmdArgs4 ++ [str (r"sh"), str (r"-c"), runCmd]
            if env.deadlineExceeded then
              { result := .ok ⟨env.runStdout,
                  env.runStderr ++ '\n' :: str (r"Execution timed out"),
                  1, []⟩,
                cleanedUp := false, stopAttempted := true, packaged := false,
                cmdArgs := cmdArgs5, ctxTimeoutSec := cfg.TimeoutSec }
            else if env.runErr.isSome then
              ⟨.error .execFailed, false, false, false, cmdArgs5, cfg.TimeoutSec⟩
            else
              match env.artifactsResult
                  (dockerExcludePatterns langConfigs req.Language) with
              | .error _ =>
                ⟨.error .createArtifacts, false, false, true, cmdArgs5,
                  cfg.TimeoutSec⟩
              | .ok artifactsTar =>
                if (artifactsTar.length : Int) >
                    cfg.MaxArtifactSizeMB * 1024 * 1024 then
                  ⟨.error (.artifactsTooLarge artifactsTar.length
                      (cfg.MaxArtifactSizeMB * MaxArtifactSizeMul)),
                    false, false, true, cmdArgs5, cfg.TimeoutSec⟩
                else
                  ⟨.ok ⟨env.runStdout, env.runStderr, env.runExitCode,
                      artifactsTar⟩,
                    false, false, true, cmdArgs5, cfg.TimeoutSec⟩

/-- Models `DockerExecutor.Execute`: create the scratch directory,
register its removal (`defer`), then run the body; the deferred
removal runs on every return path once the directory exists. -/
def dockerExecute (cfg : Config) (langEnvs : Option LanguageEnvironments)
    (langConfigs : Option LanguageConfigs)
    (langCodeConfigs : Option LanguageCodeConfigs)
    (env : DockerEnv) (req : ExecuteRequest) : DockerOutcome :=
  match env.mkdirTempResult with
  | .error _ => ⟨.error .tempDir, false, false, false, [], 0⟩
  | .ok tempDir =>
    let out := dockerExecuteBody cfg langEnvs langConfigs langCodeConfigs
      env req tempDir
    { out with cleanedUp := true }

/-- Models `config.Language`: the per-language settings the local
executor reads. -/
structure ConfigLanguage where
  Environment : List (Str × Str)
  ExcludePatterns : List Str
  PrefixCode : Str
  PostfixCode : Str

/-- Models the `config.Config` the local executor holds (its
`Languages` map). -/
structure GlobalConfig where
  Languages : List (Str × ConfigLanguage)

/-- `cfg.Languages[language]` lookup. -/
def lookupLanguage (gcfg : GlobalConfig) (language : Str) :
    Option ConfigLanguage :=
  (gcfg.Languages.find? (fun kv => decide (kv.1 = language))).map
    (fun kv => kv.2)

/-- Models `applyHooksFromConfig`. -/
def applyHooksFromConfig (gcfg : GlobalConfig) (language code : Str) : Str :=
  match lookupLanguage gcfg language with
  | some lc => lc.PrefixCode ++ code ++ lc.PostfixCode
  | none => code

/-- The exclusion patterns the local executor selects for a
language. -/
def localExcludePatterns (gcfg : GlobalConfig) (language : Str) : List Str :=
  match lookupLanguage gcfg language with
  | some lc => lc.ExcludePatterns
  | none => []

/-- How `cmd.Run`'s error is classified by the local executor. -/
inductive RunErrKind where
  | noErr : RunErrKind
  | exitErr : Int → RunErrKind
  | otherErr : RunErrKind
deriving DecidableEq

/-- Oracle for one `LocalExecutor.Execute` call. -/
structure LocalEnv where
  mkdirTempResult : Except Unit Str
  mkdirAllOk : Bool
  extractOk : Bool
  writeCodeOk : Bool
  buildOk : Bool
  buildErrMsg : Str
  runStdout : Str
  runStderr : Str
  runErrKind : RunErrKind
  deadlineExceeded : Bool
  artifactsResult : List Str → Except Unit (List UInt8)

/-- The observable outcome of one `LocalExecutor.Execute` call. -/
structure LocalOutcome where
  result : Except ExecErr ExecuteResult
  cleanedUp : Bool
  packaged : Bool
  ctxTimeoutSec : Int

/-- The phase of `LocalExecutor.Execute` after `cmd.Run` returns:
deadline check, exit-code extraction, artifact packaging, size cap. -/
def localRunPhase (cfg : Config) (gcfg : GlobalConfig) (env : LocalEnv)
    (req : ExecuteRequest) : LocalOutcome :=
  if env.deadlineExceeded then
    ⟨.ok ⟨env.runStdout,
        env.runStderr ++ '\n' :: str (r"Execution timed out"), 1, []⟩,
      false, false, cfg.TimeoutSec⟩
  else
    match env.runErrKind with
    | .otherErr => ⟨.error .execFailed, false, false, cfg.TimeoutSec⟩
    | k =>
      let exitCode := match k with
        | .exitErr c => c
        | _ => 0
      match env.artifactsResult (localExcludePatterns gcfg req.Language) with
      | .error _ => ⟨.error .createArtifacts, false, true, cfg.TimeoutSec⟩
      | .ok artifactsTar =>
        if (artifactsTar.length : Int) >
            cfg.MaxArtifactSizeMB * 1024 * 1024 then
          ⟨.error (.artifactsTooLarge artifactsTar.length
              (cfg.MaxArtifactSizeMB * MaxArtifactSizeMul)),
            false, true, cfg.TimeoutSec⟩
        else
          ⟨.ok ⟨env.runStdout, env.runStderr, exitCode, artifactsTar⟩,
            false, true, cfg.TimeoutSec⟩

/-- `LocalExecutor.Execute` after the temp directory exists. -/
def localExecuteBody (cfg : Config) (gcfg : GlobalConfig) (env : LocalEnv)
    (req : ExecuteRequest) (tempDir : Str) : LocalOutcome :=
  let workdirPath := goJoin tempDir (str (r"workdir"))
  if ¬env.mkdirAllOk then ⟨.error .workdir, false, false, 0⟩
  else if req.WorkdirTar ≠ [] ∧ ¬env.extractOk then
    ⟨.error .extractWorkdir, false, false, 0⟩
  else
    match GetCodeFileName req.Language with
    | .error _ => ⟨.error .invalidLanguage, false, false, 0⟩
    | .ok codeFileName =>
      let finalCode := applyHooksFromConfig gcfg req.Language req.Code
      let codeFilePath := goJoin workdirPath codeFileName
      if ¬env.writeCodeOk then ⟨.error .writeCode, false, false, 0⟩
      else
        if req.Language = LanguagePython ∨ req.Language = LanguageNodeJS then
          localRunPhase cfg gcfg env req
        else if req.Language = LanguageGo then
          if ¬env.buildOk then
            ⟨.ok ⟨[], str (r"Build error: ") ++ env.buildErrMsg, 1, []⟩,
              false, false, cfg.TimeoutSec⟩
          else localRunPhase cfg gcfg env req
        else if req.Language = LanguageCPP then
          if ¬env.buildOk then
            ⟨.ok ⟨[], str (r"Compile error: ") ++ env.buildErrMsg, 1, []⟩,
              false, false, cfg.TimeoutSec⟩
          else localRunPhase cfg gcfg env req
        else ⟨.error .unsupportedLanguage, false, false, cfg.TimeoutSec⟩

/-- Models `LocalExecutor.Execute` (with the `defer os.RemoveAll`
applied by the wrapper). -/
def localExecute (cfg : Config) (gcfg : GlobalConfig) (env : LocalEnv)
    (req : ExecuteRequest) : LocalOutcome :=
  match env.mkdirTempResult with
  | .error _ => ⟨.error .tempDir, false, false, 0⟩
  | .ok tempDir =>
    let out := localExecuteBody cfg gcfg env req tempDir
    { out with cleanedUp := true }

/-! ## Support lemmas about splitting, joining and cleaning -/

theorem containsSl_spec {s sub : Str} :
    containsSl s sub = true ↔ sub <:+: s := by
  induction s with
  | nil =>
    simp [containsSl, List.isEmpty_iff]
  | cons c rest ih =>
    simp only [containsSl, Bool.or_eq_true, List.isPrefixOf_iff_prefix, ih]
    exact List.infix_cons_iff.symm

theorem splitSl_ne_nil (l : Str) : splitSl l ≠ [] := by
  cases l with
  | nil => simp [splitSl]
  | cons c rest =>
    rw [splitSl]
    split
    · simp
    · split <;> simp_all

theorem splitSl_cons_slash (l : Str) : splitSl ('/' :: l) = [] :: splitSl l := by
  rw [splitSl, if_pos rfl]

theorem splitSl_cons_ne {c : Char} (hc : c ≠ '/') (l : Str) :
    splitSl (c :: l) =
      match splitSl l with
      | [] => [[c]]
      | s :: ss => (c :: s) :: ss := by
  rw [splitSl, if_neg hc]

theorem joinSegs_cons_cons (s t : Str) (ts : List Str) :
    joinSegs (s :: t :: ts) = s ++ '/' :: joinSegs (t :: ts) := rfl

theorem splitSl_append (a b : Str) :
    splitSl (a ++ '/' :: b) = splitSl a ++ splitSl b := by
  induction a with
  | nil => simp [splitSl_cons_slash, splitSl]
  | cons c a' ih =>
    by_cases hc : c = '/'
    · subst hc
      rw [List.cons_append, splitSl_cons_slash, ih, splitSl_cons_slash,
        List.cons_append]
    · rw [List.cons_append, splitSl_cons_ne hc, splitSl_cons_ne hc, ih]
      cases h : splitSl a' with
      | nil => exact absurd h (splitSl_ne_nil a')
      | cons s ss => simp

theorem mem_splitSl_no_slash {x : Str} {l : Str} (h : x ∈ splitSl l) :
    '/' ∉ x := by
  induction l generalizing x with
  | nil =>
    simp [splitSl] at h
    simp [h]
  | cons c rest ih =>
    rw [splitSl] at h
    split at h
    · rw [List.mem_cons] at h
      rcases h with h | h
      · simp [h]
      · exact ih h
    · rename_i hc
      cases hs : splitSl rest with
      | nil => exact absurd hs (splitSl_ne_nil rest)
      | cons s ss =>
        rw [hs, List.mem_cons] at h
        rcases h with h | h
        · subst h
          intro hmem
          rw [List.mem_cons] at hmem
          rcases hmem with h2 | h2
          · exact hc h2.symm
          · exact ih (by rw [hs]; exact List.mem_cons_self s ss) h2
        · exact ih (by rw [hs]; exact List.mem_cons_of_mem s h)

theorem splitSl_no_slash {x : Str} (h : '/' ∉ x) : splitSl x = [x] := by
  induction x with
  | nil => simp [splitSl]
  | cons c rest ih =>
    have hc : c ≠ '/' := fun hh => h (by simp [hh])
    rw [splitSl, if_neg hc, ih (fun hh => h (by simp [hh]))]

theorem splitSl_joinSegs {segs : List Str} (hne : segs ≠ [])
    (h : ∀ x ∈ segs, '/' ∉ x) : splitSl (joinSegs segs) = segs := by
  induction segs with
  | nil => exact absurd rfl hne
  | cons s rest ih =>
    cases rest with
    | nil => exact splitSl_no_slash (h s (by simp))
    | cons t rest' =>
      rw [joinSegs_cons_cons, splitSl_append, splitSl_no_slash (h s (by simp))]
      rw [ih (List.cons_ne_nil t rest') (fun x hx => h x (by simp [hx]))]
      rfl

theorem joinSegs_splitSl (s : Str) : joinSegs (splitSl s) = s := by
  induction s with
  | nil => rfl
  | cons c rest ih =>
    by_cases hc : c = '/'
    · subst hc
      rw [splitSl_cons_slash]
      cases h : splitSl rest with
      | nil => exact absurd h (splitSl_ne_nil rest)
      | cons t ts =>
        rw [joinSegs_cons_cons]
        rw [← h, ih]
        rfl
    · rw [splitSl_cons_ne hc]
      cases h : splitSl rest with
      | nil => exact absurd h (splitSl_ne_nil rest)
      | cons t ts =>
        rw [h] at ih
        simp only []
        cases ts with
        | nil =>
          exact congrArg (List.cons c) ih
        | cons u us =>
          rw [joinSegs_cons_cons] at ih
          rw [joinSegs_cons_cons]
          show c :: (t ++ '/' :: joinSegs (u :: us)) = c :: rest
          exact congrArg (List.cons c) ih

theorem joinSegs_append {a b : List Str} (ha : a ≠ []) (hb : b ≠ []) :
    joinSegs (a ++ b) = joinSegs a ++ '/' :: joinSegs b := by
  induction a with
  | nil => exact absurd rfl ha
  | cons s rest ih =>
    cases rest with
    | nil =>
      cases b with
      | nil => exact absurd rfl hb
      | cons t ts =>
        rw [List.singleton_append, joinSegs_cons_cons]
        rfl
    | cons u us =>
      have h1 : (s :: u :: us) ++ b = s :: u :: (us ++ b) := by simp
      rw [h1, joinSegs_cons_cons, joinSegs_cons_cons]
      have h2 : u :: (us ++ b) = (u :: us) ++ b := by simp
      rw [h2, ih (List.cons_ne_nil u us)]
      simp

theorem mem_infix_joinSegs {x : Str} {segs : List Str} (h : x ∈ segs) :
    x <:+: joinSegs segs := by
  induction segs with
  | nil => simp at h
  | cons s rest ih =>
    rw [List.mem_cons] at h
    rcases h with h | h
    · subst h
      cases rest with
      | nil => exact List.infix_refl x
      | cons t ts =>
        rw [joinSegs_cons_cons]
        exact (List.prefix_append x ('/' :: joinSegs (t :: ts))).isInfix
    · cases rest with
      | nil => simp at h
      | cons t ts =>
        rw [joinSegs_cons_cons]
        have h2 := ih h
        have hs1 : joinSegs (t :: ts) <:+ '/' :: joinSegs (t :: ts) :=
          List.suffix_cons '/' _
        have hs2 : ('/' :: joinSegs (t :: ts)) <:+ s ++ '/' :: joinSegs (t :: ts) :=
          List.suffix_append s _
        exact h2.trans (hs1.trans hs2).isInfix

theorem mem_goodSeg_valid {x : Str} {l : List Str}
    (h : x ∈ l.filter goodSeg) : x ≠ [] ∧ x ≠ ['.'] := by
  have := List.of_mem_filter h
  simp only [goodSeg, Bool.and_eq_true, Bool.not_eq_true', beq_eq_false_iff_ne,
    ne_eq] at this
  exact ⟨this.1, this.2⟩

theorem foldl_cleanStep_no_dotdot {segs : List Str} {rooted : Bool}
    (h : ∀ x ∈ segs, x ≠ str (r"..")) (rs : List Str) :
    segs.foldl (cleanStep rooted) rs = segs.reverse ++ rs := by
  induction segs generalizing rs with
  | nil => simp
  | cons s rest ih =>
    rw [List.foldl_cons]
    have hstep : cleanStep rooted rs s = s :: rs := by
      rw [cleanStep.eq_def, if_neg (h s (List.mem_cons_self s rest))]
    rw [hstep, ih (fun x hx => h x (List.mem_cons_of_mem s hx))]
    simp

theorem mem_cleanStep {rooted : Bool} {rs : List Str} {s x : Str}
    (h : x ∈ cleanStep rooted rs s) : x ∈ rs ∨ x = s := by
  rw [cleanStep.eq_def] at h
  split at h
  · split at h
    · rename_i t rest2
      split at h
      · exact Or.inl (List.mem_cons_of_mem t h)
      · split at h
        · rw [List.mem_cons] at h
          rcases h with h | h
          · exact Or.inr h
          · exact Or.inl h
        · exact Or.inl (List.mem_cons_of_mem t h)
    · split at h
      · simp at h
      · simp only [List.mem_cons, List.not_mem_nil, or_false] at h
        exact Or.inr h
  · rw [List.mem_cons] at h
    rcases h with h | h
    · exact Or.inr h
    · exact Or.inl h

theorem mem_foldl_cleanStep {rooted : Bool} {segs : List Str} :
    ∀ {rs : List Str} {x : Str},
      x ∈ segs.foldl (cleanStep rooted) rs → x ∈ rs ∨ x ∈ segs := by
  induction segs with
  | nil =>
    intro rs x h
    simp at h
    exact Or.inl h
  | cons s rest ih =>
    intro rs x h
    rw [List.foldl_cons] at h
    rcases ih h with h1 | h1
    · rcases mem_cleanStep h1 with h2 | h2
      · exact Or.inl h2
      · exact Or.inr (h2 ▸ List.mem_cons_self s rest)
    · exact Or.inr (List.mem_cons_of_mem s h1)

/-- Evaluation of `goClean` on a rooted path none of whose surviving
segments is a parent-directory element. -/
theorem goClean_rooted_eval {p : Str} (hp : p.head? = some '/')
    (hnd : ∀ x ∈ (splitSl p).filter goodSeg, x ≠ str (r"..")) :
    goClean p = if (splitSl p).filter goodSeg = [] then ['/']
      else '/' :: joinSegs ((splitSl p).filter goodSeg) := by
  have hpne : p ≠ [] := by cases p <;> simp_all
  rw [goClean, if_neg hpne]
  simp only [hp, decide_eq_true_eq]
  rw [foldl_cleanStep_no_dotdot hnd []]
  rw [List.append_nil, List.reverse_reverse]
  simp

/-- Evaluation of `goClean` on a relative path none of whose surviving
segments is a parent-directory element. -/
theorem goClean_nonrooted_eval {p : Str} (hpne : p ≠ [])
    (hp : p.head? ≠ some '/')
    (hnd : ∀ x ∈ (splitSl p).filter goodSeg, x ≠ str (r"..")) :
    goClean p = if (splitSl p).filter goodSeg = [] then ['.']
      else joinSegs ((splitSl p).filter goodSeg) := by
  rw [goClean, if_neg hpne]
  simp only [decide_eq_true_eq]
  rw [foldl_cleanStep_no_dotdot hnd []]
  rw [List.append_nil, List.reverse_reverse]
  rw [if_neg hp]

/-- No parent-directory segment survives in the split of a string that
does not contain `..` as a substring. -/
theorem no_dotdot_seg_of_not_contains {p : Str}
    (h : containsSl p (str (r"..")) = false) :
    ∀ x ∈ (splitSl p).filter goodSeg, x ≠ str (r"..") := by
  intro x hx hcontra
  have hmem : x ∈ splitSl p := List.mem_of_mem_filter hx
  have hinf : x <:+: p := by
    have h2 := mem_infix_joinSegs hmem
    rwa [joinSegs_splitSl] at h2
  rw [hcontra] at hinf
  rw [← containsSl_spec] at hinf
  rw [h] at hinf
  exact Bool.false_ne_true hinf

/-- Evaluation of `goJoin` against a well-formed absolute destination:
the join lands at `'/' :: joinSegs (dsegs ++ surviving segments)`. -/
theorem goJoin_left_eval {dsegs : List Str} (hd1 : dsegs ≠ [])
    (hd2 : ∀ x ∈ dsegs, validName x = true) (X : Str)
    (hx : ∀ x ∈ (splitSl X).filter goodSeg, x ≠ str (r"..")) :
    goJoin ('/' :: joinSegs dsegs) X =
      '/' :: joinSegs (dsegs ++ (splitSl X).filter goodSeg) := by
  have hdgood : ∀ x ∈ dsegs, goodSeg x = true := by
    intro x hxm
    have hv := hd2 x hxm
    simp only [validName, Bool.and_eq_true, Bool.not_eq_true',
      beq_eq_false_iff_ne, ne_eq, decide_eq_true_eq] at hv
    simp only [goodSeg, Bool.and_eq_true, Bool.not_eq_true',
      beq_eq_false_iff_ne, ne_eq]
    exact ⟨hv.1.1.1, hv.1.1.2⟩
  have hdnos : ∀ x ∈ dsegs, '/' ∉ x := by
    intro x hxm
    have hv := hd2 x hxm
    simp only [validName, Bool.and_eq_true, Bool.not_eq_true',
      beq_eq_false_iff_ne, ne_eq, decide_eq_true_eq] at hv
    exact hv.2
  have hdnd : ∀ x ∈ dsegs, x ≠ str (r"..") := by
    intro x hxm
    have hv := hd2 x hxm
    simp only [validName, Bool.and_eq_true, Bool.not_eq_true',
      beq_eq_false_iff_ne, ne_eq, decide_eq_true_eq] at hv
    exact hv.1.2
  rw [goJoin, if_neg (List.cons_ne_nil _ _)]
  have hsplit : splitSl (('/' :: joinSegs dsegs) ++ '/' :: X) =
      [] :: (dsegs ++ splitSl X) := by
    rw [List.cons_append, splitSl_cons_slash, splitSl_append,
      splitSl_joinSegs hd1 hdnos]
  have hfilter : (splitSl (('/' :: joinSegs dsegs) ++ '/' :: X)).filter goodSeg =
      dsegs ++ (splitSl X).filter goodSeg := by
    rw [hsplit]
    rw [show (([] : Str) :: (dsegs ++ splitSl X)).filter goodSeg
        = (dsegs ++ splitSl X).filter goodSeg from by
      rw [List.filter_cons]
      simp [goodSeg]]
    rw [List.filter_append, List.filter_eq_self.mpr hdgood]
  have hnd2 : ∀ x ∈ (splitSl (('/' :: joinSegs dsegs) ++ '/' :: X)).filter goodSeg,
      x ≠ str (r"..") := by
    rw [hfilter]
    intro x hxm
    rw [List.mem_append] at hxm
    rcases hxm with hxm | hxm
    · exact hdnd x hxm
    · exact hx x hxm
  rw [goClean_rooted_eval (by simp) hnd2, hfilter]
  rw [if_neg (by simp [hd1])]

/-! ## Support lemmas about the extractor -/

theorem extractTarToDir_cons (d : Str) (e : TarEntry) (rest : List TarEntry) :
    extractTarToDir d (e :: rest) =
      if containsSl (goClean e.name) (str (r"..")) then
        ([], some (.unsafeRelPath e.name))
      else if !(hasPrefixSl (goJoin d (goClean e.name)) d) then
        ([], some (.invalidFilePath e.name))
      else if goIsAbs e.name then
        ([], some (.absolutePath e.name))
      else
        match e.typeflag with
        | .dir =>
          (FsOp.mkdirAll (goJoin d (goClean e.name)) ::
            (extractTarToDir d rest).1, (extractTarToDir d rest).2)
        | .reg =>
          (FsOp.mkdirAll (goDir (goJoin d (goClean e.name))) ::
            FsOp.writeFile (goJoin d (goClean e.name)) e.content ::
            (extractTarToDir d rest).1, (extractTarToDir d rest).2)
        | .other c => ([], some (.unsupportedType c)) := rfl

theorem hasDotDotSegment_contains {s : Str}
    (h : hasDotDotSegment s = true) : containsSl s (str (r"..")) = true := by
  simp only [hasDotDotSegment, List.contains_eq_any_beq, List.any_eq_true,
    beq_iff_eq] at h
  obtain ⟨x, hx, hxe⟩ := h
  rw [containsSl_spec]
  have hinf := mem_infix_joinSegs hx
  rw [joinSegs_splitSl] at hinf
  exact hxe ▸ hinf

/-- Every entry whose cleaned name is free of `..` joins to a
destination at or strictly below a well-formed absolute `destDir`, and
in particular passes the extractor's prefix check. -/
theorem extract_entry_inside {dsegs : List Str} (hd1 : dsegs ≠ [])
    (hd2 : ∀ x ∈ dsegs, validName x = true) {nm : Str}
    (hnc : containsSl (goClean nm) (str (r"..")) = false) :
    hasPrefixSl (goJoin ('/' :: joinSegs dsegs) (goClean nm))
      ('/' :: joinSegs dsegs) = true ∧
    isDescendantOf (goJoin ('/' :: joinSegs dsegs) (goClean nm))
      ('/' :: joinSegs dsegs) = true := by
  have hx := no_dotdot_seg_of_not_contains hnc
  rw [goJoin_left_eval hd1 hd2 (goClean nm) hx]
  cases hxe : (splitSl (goClean nm)).filter goodSeg with
  | nil =>
    rw [List.append_nil]
    constructor
    · simp [hasPrefixSl]
    · simp [isDescendantOf]
  | cons y ys =>
    have hje : joinSegs (dsegs ++ y :: ys) =
        joinSegs dsegs ++ '/' :: joinSegs (y :: ys) :=
      joinSegs_append hd1 (List.cons_ne_nil y ys)
    rw [hje]
    constructor
    · simp only [hasPrefixSl, List.isPrefixOf_iff_prefix]
      exact ⟨'/' :: joinSegs (y :: ys), by simp⟩
    · simp only [isDescendantOf, hasPrefixSl, Bool.or_eq_true,
        List.isPrefixOf_iff_prefix]
      right
      exact ⟨joinSegs (y :: ys), by simp⟩

/-- A claim-offending entry is rejected by the extractor: the whole
call errors and nothing is applied. -/
theorem extract_offending_rejected {dsegs : List Str} (hd1 : dsegs ≠ [])
    (hd2 : ∀ x ∈ dsegs, validName x = true) {e : TarEntry}
    (rest : List TarEntry)
    (hoff : claimOffending ('/' :: joinSegs dsegs) e = true) :
    (extractTarToDir ('/' :: joinSegs dsegs) (e :: rest)).1 = [] ∧
    (extractTarToDir ('/' :: joinSegs dsegs) (e :: rest)).2.isSome = true := by
  rw [extractTarToDir_cons]
  by_cases h1 : containsSl (goClean e.name) (str (r"..")) = true
  · rw [if_pos h1]
    exact ⟨rfl, rfl⟩
  · have h1f : containsSl (goClean e.name) (str (r"..")) = false :=
      Bool.not_eq_true _ ▸ (Bool.eq_false_iff.mpr h1)
    have hacc := extract_entry_inside hd1 hd2 h1f
    rw [if_neg (by rw [h1f]; simp), if_neg (by rw [hacc.1]; simp)]
    by_cases habs : goIsAbs e.name = true
    · rw [if_pos habs]
      exact ⟨rfl, rfl⟩
    · rw [if_neg habs]
      have hother : (match e.typeflag with
          | TypeFlag.other _ => true
          | _ => false) = true := by
        simp only [claimOffending, Bool.or_eq_true] at hoff
        rcases hoff with ((hA | hB) | hC) | hD
        · exact absurd (hasDotDotSegment_contains hA) (by rw [h1f]; simp)
        · exact absurd hB habs
        · rw [hacc.2] at hC
          simp at hC
        · exact hD
      match htf : e.typeflag with
      | .other c => exact ⟨rfl, rfl⟩
      | .dir => rw [htf] at hother; simp at hother
      | .reg => rw [htf] at hother; simp at hother

/-- Sequencing: extraction of `A ++ B` runs `A` first and continues
into `B` only when `A` extracted without error. -/
theorem extract_append (d : Str) (A B : List TarEntry) :
    extractTarToDir d (A ++ B) =
      if (extractTarToDir d A).2.isSome then extractTarToDir d A
      else ((extractTarToDir d A).1 ++ (extractTarToDir d B).1,
        (extractTarToDir d B).2) := by
  induction A with
  | nil => simp [extractTarToDir]
  | cons e A' ih =>
    rw [List.cons_append, extractTarToDir_cons, extractTarToDir_cons]
    split
    · simp
    · split
      · simp
      · split
        · simp
        · match e.typeflag with
          | .dir =>
            simp only []
            rw [ih]
            split <;> simp_all
          | .reg =>
            simp only []
            rw [ih]
            split <;> simp_all
          | .other c => simp

/-- Every file the extractor writes lands at or below a well-formed
absolute destination directory. -/
theorem extract_writes_inside {dsegs : List Str} (hd1 : dsegs ≠ [])
    (hd2 : ∀ x ∈ dsegs, validName x = true) (entries : List TarEntry) :
    ∀ p c, FsOp.writeFile p c ∈
        (extractTarToDir ('/' :: joinSegs dsegs) entries).1 →
      isDescendantOf p ('/' :: joinSegs dsegs) = true := by
  induction entries with
  | nil =>
    intro p c hmem
    simp [extractTarToDir] at hmem
  | cons e rest ih =>
    intro p c hmem
    rw [extractTarToDir_cons] at hmem
    split at hmem
    · simp at hmem
    · split at hmem
      · simp at hmem
      · split at hmem
        · simp at hmem
        · rename_i hnc hpre habs
          have h1f : containsSl (goClean e.name) (str (r"..")) = false :=
            Bool.not_eq_true _ ▸ (Bool.eq_false_iff.mpr hnc)
          match htf : e.typeflag with
          | .dir =>
            rw [htf] at hmem
            simp only [List.mem_cons] at hmem
            rcases hmem with hmem | hmem
            · exact absurd hmem (by simp)
            · exact ih p c hmem
          | .reg =>
            rw [htf] at hmem
            simp only [List.mem_cons] at hmem
            rcases hmem with hmem | hmem | hmem
            · exact absurd hmem (by simp)
            · rw [FsOp.writeFile.injEq] at hmem
              rw [hmem.1]
              exact (extract_entry_inside hd1 hd2 h1f).2
            · exact ih p c hmem
          | .other c2 =>
            rw [htf] at hmem
            simp at hmem

/-! ## Support lemmas about the archive creator -/

theorem prefix_append_slash {sub x y : Str} (hnosl : '/' ∉ sub)
    (h : sub <+: (x ++ '/' :: y)) : sub <+: x := by
  induction x generalizing sub with
  | nil =>
    cases sub with
    | nil => exact List.nil_prefix
    | cons c cs =>
      rw [List.nil_append, List.cons_prefix_cons] at h
      exact absurd (List.mem_cons.mpr (Or.inl h.1.symm)) hnosl
  | cons d xs ih =>
    cases sub with
    | nil => exact List.nil_prefix
    | cons c cs =>
      rw [List.cons_append, List.cons_prefix_cons] at h
      rw [List.cons_prefix_cons]
      exact ⟨h.1, ih (fun hm => hnosl (List.mem_cons_of_mem c hm)) h.2⟩

theorem containsSl_nil_of_ne {sub : Str} (hne : sub ≠ []) :
    containsSl [] sub = false := by
  cases sub with
  | nil => exact absurd rfl hne
  | cons c cs => rfl

theorem containsSl_append_slash {sub : Str} (hne : sub ≠ [])
    (hnosl : '/' ∉ sub) (a b : Str) :
    containsSl (a ++ '/' :: b) sub =
      (containsSl a sub || containsSl b sub) := by
  induction a with
  | nil =>
    rw [List.nil_append]
    show (sub.isPrefixOf ('/' :: b) || containsSl b sub) = _
    have hp : sub.isPrefixOf ('/' :: b) = false := by
      cases hq : sub.isPrefixOf ('/' :: b) with
      | false => rfl
      | true =>
        rw [List.isPrefixOf_iff_prefix] at hq
        cases sub with
        | nil => exact absurd rfl hne
        | cons c cs =>
          rw [List.cons_prefix_cons] at hq
          exact absurd (List.mem_cons.mpr (Or.inl hq.1.symm)) hnosl
    rw [hp]
    rw [containsSl_nil_of_ne hne]
  | cons d a' ih =>
    rw [List.cons_append]
    show (sub.isPrefixOf (d :: (a' ++ '/' :: b)) ||
      containsSl (a' ++ '/' :: b) sub) = _
    rw [ih]
    have hiff : sub.isPrefixOf (d :: (a' ++ '/' :: b)) =
        sub.isPrefixOf (d :: a') := by
      cases hq : sub.isPrefixOf (d :: a') with
      | true =>
        rw [List.isPrefixOf_iff_prefix] at hq ⊢
        have : (d :: a') ++ '/' :: b = d :: (a' ++ '/' :: b) := by simp
        exact this ▸ hq.trans (List.prefix_append (d :: a') ('/' :: b))
      | false =>
        cases hq2 : sub.isPrefixOf (d :: (a' ++ '/' :: b)) with
        | false => rfl
        | true =>
          rw [List.isPrefixOf_iff_prefix] at hq2
          have : sub <+: d :: a' := by
            have he : d :: (a' ++ '/' :: b) = (d :: a') ++ '/' :: b := by simp
            exact prefix_append_slash hnosl (he ▸ hq2)
          rw [← List.isPrefixOf_iff_prefix, hq] at this
          exact absurd this (by simp)
    rw [hiff]
    show _ = ((sub.isPrefixOf (d :: a') || containsSl a' sub) || containsSl b sub)
    rw [Bool.or_assoc]

theorem containsSl_joinSegs_false {sub : Str} (hne : sub ≠ [])
    (hnosl : '/' ∉ sub) {segs : List Str}
    (h : ∀ x ∈ segs, containsSl x sub = false) :
    containsSl (joinSegs segs) sub = false := by
  induction segs with
  | nil => exact containsSl_nil_of_ne hne
  | cons s rest ih =>
    cases rest with
    | nil => exact h s (List.mem_cons_self s [])
    | cons t ts =>
      rw [joinSegs_cons_cons, containsSl_append_slash hne hnosl]
      rw [h s (List.mem_cons_self s _),
        ih (fun x hx => h x (List.mem_cons_of_mem s hx))]
      rfl

theorem validNameNoDotDot_parts {x : Str} (h : validNameNoDotDot x = true) :
    x ≠ [] ∧ x ≠ ['.'] ∧ x ≠ str (r"..") ∧ '/' ∉ x ∧
      containsSl x (str (r"..")) = false := by
  simp only [validNameNoDotDot, validName, Bool.and_eq_true, Bool.not_eq_true',
    beq_eq_false_iff_ne, ne_eq, decide_eq_true_eq] at h
  exact ⟨h.1.1.1.1, h.1.1.1.2, h.1.1.2, h.1.2, h.2⟩

theorem validNameNoDotDot_validName {x : Str}
    (h : validNameNoDotDot x = true) : validName x = true := by
  simp only [validNameNoDotDot, Bool.and_eq_true] at h
  exact h.1

theorem joinSegs_ne_nil {segs : List Str} (h1 : segs ≠ [])
    (h2 : ∀ x ∈ segs, validNameNoDotDot x = true) : joinSegs segs ≠ [] := by
  cases segs with
  | nil => exact absurd rfl h1
  | cons s rest =>
    have hs := (validNameNoDotDot_parts (h2 s (List.mem_cons_self s rest))).1
    cases rest with
    | nil => exact hs
    | cons t ts =>
      rw [joinSegs_cons_cons]
      cases s with
      | nil => exact absurd rfl hs
      | cons c cs => simp

theorem joinSegs_head_ne_slash {segs : List Str} (h1 : segs ≠ [])
    (h2 : ∀ x ∈ segs, validNameNoDotDot x = true) :
    (joinSegs segs).head? ≠ some '/' := by
  cases segs with
  | nil => exact absurd rfl h1
  | cons s rest =>
    have hp := validNameNoDotDot_parts (h2 s (List.mem_cons_self s rest))
    have hhead : ∀ c cs, s = c :: cs → c ≠ '/' := by
      intro c cs he hc
      exact hp.2.2.2.1 (by rw [he, hc]; exact List.mem_cons_self '/' cs)
    cases hs : s with
    | nil => exact absurd hs hp.1
    | cons c cs =>
      cases rest with
      | nil =>
        simp only [joinSegs, List.head?_cons, ne_eq, Option.some.injEq]
        exact hhead c cs hs
      | cons t ts =>
        rw [joinSegs_cons_cons]
        simp only [List.cons_append, List.head?_cons, ne_eq, Option.some.injEq]
        exact hhead c cs hs

theorem relJoin_joinSegs {psegs : List Str}
    (hp : ∀ x ∈ psegs, validNameNoDotDot x = true) (nm : Str) :
    relJoin (joinSegs psegs) nm = joinSegs (psegs ++ [nm]) := by
  cases hps : psegs with
  | nil => simp [relJoin, joinSegs]
  | cons s rest =>
    rw [← hps]
    have hne : joinSegs psegs ≠ [] :=
      joinSegs_ne_nil (by rw [hps]; simp) hp
    rw [relJoin, if_neg (by simp [hne])]
    rw [joinSegs_append (by rw [hps]; simp) (List.cons_ne_nil nm [])]
    rfl

/-- The facts the extractor needs about one entry created by the walk:
its name is already clean, free of `..`, relative, and joins below the
destination at exactly `destDir ++ '/' :: relPath`. -/
theorem rel_entry_facts {dsegs : List Str} (hd1 : dsegs ≠ [])
    (hd2 : ∀ x ∈ dsegs, validName x = true) {rsegs : List Str}
    (hr1 : rsegs ≠ []) (hr2 : ∀ x ∈ rsegs, validNameNoDotDot x = true) :
    goClean (joinSegs rsegs) = joinSegs rsegs ∧
    containsSl (joinSegs rsegs) (str (r"..")) = false ∧
    goIsAbs (joinSegs rsegs) = false ∧
    goJoin ('/' :: joinSegs dsegs) (joinSegs rsegs) =
      ('/' :: joinSegs dsegs) ++ '/' :: joinSegs rsegs := by
  have hnos : ∀ x ∈ rsegs, '/' ∉ x :=
    fun x hx => (validNameNoDotDot_parts (hr2 x hx)).2.2.2.1
  have hgood : ∀ x ∈ rsegs, goodSeg x = true := by
    intro x hx
    have hpp := validNameNoDotDot_parts (hr2 x hx)
    simp only [goodSeg, Bool.and_eq_true, Bool.not_eq_true',
      beq_eq_false_iff_ne, ne_eq]
    exact ⟨hpp.1, hpp.2.1⟩
  have hsplit : splitSl (joinSegs rsegs) = rsegs := splitSl_joinSegs hr1 hnos
  have hfilter : (splitSl (joinSegs rsegs)).filter goodSeg = rsegs := by
    rw [hsplit, List.filter_eq_self.mpr hgood]
  have hnd : ∀ x ∈ (splitSl (joinSegs rsegs)).filter goodSeg,
      x ≠ str (r"..") := by
    rw [hfilter]
    exact fun x hx => (validNameNoDotDot_parts (hr2 x hx)).2.2.1
  have hhead := joinSegs_head_ne_slash hr1 hr2
  have hne := joinSegs_ne_nil hr1 hr2
  have hclean : goClean (joinSegs rsegs) = joinSegs rsegs := by
    rw [goClean_nonrooted_eval hne hhead hnd, hfilter, if_neg hr1]
  refine ⟨hclean, ?_, ?_, ?_⟩
  · exact containsSl_joinSegs_false (by simp [str]) (by simp [str])
      (fun x hx => (validNameNoDotDot_parts (hr2 x hx)).2.2.2.2)
  · rw [goIsAbs, hasPrefixSl]
    cases hj : joinSegs rsegs with
    | nil => exact absurd hj hne
    | cons c cs =>
      have hc : c ≠ '/' := by
        rw [hj] at hhead
        simpa using hhead
      have hbc : ('/' == c) = false := beq_eq_false_iff_ne.mpr (Ne.symm hc)
      show (['/'] : Str).isPrefixOf (c :: cs) = false
      simp [List.isPrefixOf, hbc]
  · rw [goJoin_left_eval hd1 hd2 (joinSegs rsegs) hnd, hfilter]
    rw [joinSegs_append hd1 hr1]
    rfl

theorem writeOps_append (a b : List FsOp) :
    writeOps (a ++ b) = writeOps a ++ writeOps b := by
  induction a with
  | nil => rfl
  | cons op rest ih =>
    cases op with
    | mkdirAll p =>
      simp only [List.cons_append, writeOps, List.append_eq, ih]
    | writeFile p c =>
      simp only [List.cons_append, writeOps, List.append_eq, ih]

theorem hasPrefixSl_append (d x : Str) : hasPrefixSl (d ++ x) d = true := by
  rw [hasPrefixSl, List.isPrefixOf_iff_prefix]
  exact List.prefix_append d x

mutual
/-- Extracting the walk of one well-formed subtree into a well-formed
absolute destination succeeds and writes back exactly the subtree's
files. -/
theorem walk_extract_tree {dsegs : List Str} (hd1 : dsegs ≠ [])
    (hd2 : ∀ x ∈ dsegs, validName x = true)
    (t : FsTree) (psegs : List Str)
    (hp : ∀ x ∈ psegs, validNameNoDotDot x = true)
    (hwf : treeNamesOK validNameNoDotDot t = true) :
    (extractTarToDir ('/' :: joinSegs dsegs)
      (walkTree (joinSegs psegs) [] t)).2 = none ∧
    writeOps (extractTarToDir ('/' :: joinSegs dsegs)
      (walkTree (joinSegs psegs) [] t)).1 =
      (treeFiles (joinSegs psegs) t).map
        (fun pc => (('/' :: joinSegs dsegs) ++ '/' :: pc.1, pc.2)) := by
  cases t with
  | file name content =>
    rw [treeNamesOK] at hwf
    have hr2 : ∀ x ∈ psegs ++ [name], validNameNoDotDot x = true := by
      intro x hx
      rw [List.mem_append] at hx
      rcases hx with hx | hx
      · exact hp x hx
      · rw [List.mem_singleton] at hx
        exact hx ▸ hwf
    have hrel := relJoin_joinSegs hp name
    have hfacts := rel_entry_facts hd1 hd2 (by simp) hr2
    rw [walkTree, if_neg (by simp [shouldExcludeFile]), treeFiles]
    rw [hrel]
    rw [extractTarToDir_cons]
    simp only []
    rw [hfacts.1, hfacts.2.1]
    rw [if_neg (by simp)]
    rw [hfacts.2.2.2, hasPrefixSl_append]
    rw [if_neg (by simp), if_neg (by rw [hfacts.2.2.1]; simp)]
    simp only [extractTarToDir]
    refine ⟨by trivial, ?_⟩
    rw [writeOps, writeOps, writeOps]
    simp
  | dir name children =>
    rw [treeNamesOK, Bool.and_eq_true] at hwf
    have hr2 : ∀ x ∈ psegs ++ [name], validNameNoDotDot x = true := by
      intro x hx
      rw [List.mem_append] at hx
      rcases hx with hx | hx
      · exact hp x hx
      · rw [List.mem_singleton] at hx
        exact hx ▸ hwf.1
    have hrel := relJoin_joinSegs hp name
    have hfacts := rel_entry_facts hd1 hd2 (by simp) hr2
    have hrec := walk_extract_forest hd1 hd2 children (psegs ++ [name])
      hr2 hwf.2
    rw [walkTree, if_neg (by simp [shouldExcludeFile]), treeFiles]
    rw [hrel]
    rw [extractTarToDir_cons]
    simp only []
    rw [hfacts.1, hfacts.2.1]
    rw [if_neg (by simp)]
    rw [hfacts.2.2.2, hasPrefixSl_append]
    rw [if_neg (by simp), if_neg (by rw [hfacts.2.2.1]; simp)]
    exact ⟨hrec.1, by rw [writeOps]; exact hrec.2⟩

/-- Forest version of `walk_extract_tree`. -/
theorem walk_extract_forest {dsegs : List Str} (hd1 : dsegs ≠ [])
    (hd2 : ∀ x ∈ dsegs, validName x = true)
    (f : FsForest) (psegs : List Str)
    (hp : ∀ x ∈ psegs, validNameNoDotDot x = true)
    (hwf : forestNamesOK validNameNoDotDot f = true) :
    (extractTarToDir ('/' :: joinSegs dsegs)
      (walkForest (joinSegs psegs) [] f)).2 = none ∧
    writeOps (extractTarToDir ('/' :: joinSegs dsegs)
      (walkForest (joinSegs psegs) [] f)).1 =
      (forestFiles (joinSegs psegs) f).map
        (fun pc => (('/' :: joinSegs dsegs) ++ '/' :: pc.1, pc.2)) := by
  cases f with
  | nil =>
    rw [walkForest]
    exact ⟨rfl, rfl⟩
  | cons t rest =>
    rw [forestNamesOK, Bool.and_eq_true] at hwf
    have ht := walk_extract_tree hd1 hd2 t psegs hp hwf.1
    have hr := walk_extract_forest hd1 hd2 rest psegs hp hwf.2
    rw [walkForest, forestFiles]
    rw [extract_append]
    rw [if_neg (by rw [ht.1]; simp)]
    constructor
    · exact hr.1
    · rw [writeOps_append, ht.2, hr.2, List.map_append]
end

/-! ## Claim theorems -/

/-- C1: extraction path safety.  For a well-formed absolute
destination directory and any archive containing an offending entry
(cleaned name with a parent-directory segment, absolute raw name,
joined path escaping the destination, or unsupported type flag),
`ExtractTarToDir` fails with an error; with `pre` the entries before
the first offending one, the operations applied are exactly those of
extracting `pre` alone (so nothing at or after the offending entry is
applied); and every file written by any extraction lands at or below
the destination directory. -/
theorem c1_extract_path_safety (dsegs : List Str) (destDir : Str)
    (pre : List TarEntry) (bad : TarEntry) (post : List TarEntry)
    (hd1 : dsegs ≠ []) (hd2 : ∀ x ∈ dsegs, validName x = true)
    (hdest : destDir = '/' :: joinSegs dsegs)
    (hbad : claimOffending destDir bad = true) :
    (extractTarToDir destDir (pre ++ bad :: post)).2.isSome = true ∧
    (extractTarToDir destDir (pre ++ bad :: post)).1 =
      (extractTarToDir destDir pre).1 ∧
    (∀ p c, FsOp.writeFile p c ∈ (extractTarToDir destDir (pre ++ bad :: post)).1 →
      isDescendantOf p destDir = true) := by
  subst hdest
  have hrej := extract_offending_rejected hd1 hd2 post hbad
  have happ := extract_append ('/' :: joinSegs dsegs) pre (bad :: post)
  have hmain : (extractTarToDir ('/' :: joinSegs dsegs) (pre ++ bad :: post)).2.isSome = true ∧
      (extractTarToDir ('/' :: joinSegs dsegs) (pre ++ bad :: post)).1 =
        (extractTarToDir ('/' :: joinSegs dsegs) pre).1 := by
    by_cases hs : (extractTarToDir ('/' :: joinSegs dsegs) pre).2.isSome = true
    · rw [happ, if_pos hs]
      exact ⟨hs, rfl⟩
    · rw [happ, if_neg hs]
      exact ⟨hrej.2, by rw [hrej.1, List.append_nil]⟩
  exact ⟨hmain.1, hmain.2,
    extract_writes_inside hd1 hd2 (pre ++ bad :: post)⟩

/-- C1 witness: destination `/tmp`, archive with the single traversal
entry `../x`. -/
theorem c1_extract_path_safety_witness :
    (([str (r"tmp")] : List Str) ≠ [] ∧
     (∀ x ∈ [str (r"tmp")], validName x = true) ∧
     str (r"/tmp") = '/' :: joinSegs [str (r"tmp")] ∧
     claimOffending (str (r"/tmp")) ⟨str (r"../x"), .reg, [1]⟩ = true) ∧
    ((extractTarToDir (str (r"/tmp"))
        ([] ++ (⟨str (r"../x"), .reg, [1]⟩ : TarEntry) :: [])).2.isSome = true ∧
     (extractTarToDir (str (r"/tmp"))
        ([] ++ (⟨str (r"../x"), .reg, [1]⟩ : TarEntry) :: [])).1 =
       (extractTarToDir (str (r"/tmp")) []).1 ∧
     (∀ p c, FsOp.writeFile p c ∈ (extractTarToDir (str (r"/tmp"))
          ([] ++ (⟨str (r"../x"), .reg, [1]⟩ : TarEntry) :: [])).1 →
        isDescendantOf p (str (r"/tmp")) = true)) :=
  ⟨⟨by decide, by decide, by decide, by decide⟩,
   c1_extract_path_safety [str (r"tmp")] (str (r"/tmp")) []
     ⟨str (r"../x"), .reg, [1]⟩ [] (by decide) (by decide) (by decide)
     (by decide)⟩

/-- C5 counterexample: the round-trip claim fails as stated.  The tree
with the single regular file `a..b` (a legal file name) archives to an
entry whose cleaned name contains `..` as a substring, so extraction
rejects it: the error is non-nil and no file at all is written, hence
the original file set is not reproduced. -/
theorem c5_round_trip_counterexample :
    (extractTarToDir (str (r"/dst")) (createTarFromDir
      (FsForest.cons (FsTree.file (str (r"a..b")) [7]) FsForest.nil))).2.isSome
        = true ∧
    writeOps (extractTarToDir (str (r"/dst")) (createTarFromDir
      (FsForest.cons (FsTree.file (str (r"a..b")) [7]) FsForest.nil))).1 = [] ∧
    (forestFiles [] (FsForest.cons (FsTree.file (str (r"a..b")) [7])
      FsForest.nil)).length = 1 := by
  decide

/-- C5 (amended): the round-trip holds for every directory tree whose
entry names are legal file names that do not contain `..` as a
substring: creating an archive with no exclusion patterns and
extracting it into a fresh well-formed absolute destination succeeds,
and the files written are exactly the original relative paths and
byte-for-byte contents (the root entry itself produces no entry). -/
theorem c5_round_trip_amended (dsegs : List Str) (destDir : Str)
    (f : FsForest) (hd1 : dsegs ≠ [])
    (hd2 : ∀ x ∈ dsegs, validName x = true)
    (hdest : destDir = '/' :: joinSegs dsegs)
    (hwf : forestNamesOK validNameNoDotDot f = true) :
    (extractTarToDir destDir (createTarFromDir f)).2 = none ∧
    writeOps (extractTarToDir destDir (createTarFromDir f)).1 =
      (forestFiles [] f).map (fun pc => (destDir ++ '/' :: pc.1, pc.2)) := by
  subst hdest
  have h := walk_extract_forest hd1 hd2 f [] (by simp) hwf
  exact h

/-- C5 witness: a two-level tree round-trips into `/dst`. -/
theorem c5_round_trip_amended_witness :
    (([str (r"dst")] : List Str) ≠ [] ∧
     (∀ x ∈ [str (r"dst")], validName x = true) ∧
     str (r"/dst") = '/' :: joinSegs [str (r"dst")] ∧
     forestNamesOK validNameNoDotDot
       (FsForest.cons (FsTree.dir (str (r"s"))
         (FsForest.cons (FsTree.file (str (r"f")) [1, 2]) FsForest.nil))
         (FsForest.cons (FsTree.file (str (r"g")) [3]) FsForest.nil)) = true) ∧
    ((extractTarToDir (str (r"/dst")) (createTarFromDir
        (FsForest.cons (FsTree.dir (str (r"s"))
          (FsForest.cons (FsTree.file (str (r"f")) [1, 2]) FsForest.nil))
          (FsForest.cons (FsTree.file (str (r"g")) [3]) FsForest.nil)))).2 = none ∧
     writeOps (extractTarToDir (str (r"/dst")) (createTarFromDir
        (FsForest.cons (FsTree.dir (str (r"s"))
          (FsForest.cons (FsTree.file (str (r"f")) [1, 2]) FsForest.nil))
          (FsForest.cons (FsTree.file (str (r"g")) [3]) FsForest.nil)))).1 =
       (forestFiles []
          (FsForest.cons (FsTree.dir (str (r"s"))
            (FsForest.cons (FsTree.file (str (r"f")) [1, 2]) FsForest.nil))
            (FsForest.cons (FsTree.file (str (r"g")) [3]) FsForest.nil))).map
         (fun pc => (str (r"/dst") ++ '/' :: pc.1, pc.2))) :=
  ⟨⟨by decide, by decide, by decide, by decide⟩,
   c5_round_trip_amended [str (r"dst")] (str (r"/dst")) _
     (by decide) (by decide) (by decide) (by decide)⟩

theorem GetCodeFileName_ok_lang {language f : Str}
    (h : GetCodeFileName language = .ok f) :
    language = LanguagePython ∨ language = LanguageNodeJS ∨
    language = LanguageGo ∨ language = LanguageCPP := by
  rw [GetCodeFileName] at h
  by_cases h1 : language = LanguagePython
  · exact Or.inl h1
  · rw [if_neg h1] at h
    by_cases h2 : language = LanguageNodeJS
    · exact Or.inr (Or.inl h2)
    · rw [if_neg h2] at h
      by_cases h3 : language = LanguageGo
      · exact Or.inr (Or.inr (Or.inl h3))
      · rw [if_neg h3] at h
        by_cases h4 : language = LanguageCPP
        · exact Or.inr (Or.inr (Or.inr h4))
        · rw [if_neg h4] at h
          exact absurd h (by simp)

/-- C2: when the backend invocation outlives the configured deadline,
both executors return a non-error synthetic result whose exit status
is forced to 1, whose stderr is the captured stderr plus an
"Execution timed out" line, and whose artifact archive is empty;
artifact packaging is skipped; the Docker executor additionally
attempts to stop the container. -/
theorem c2_timeout_result (cfg : Config)
    (langEnvs : Option LanguageEnvironments) (lc : Option LanguageConfigs)
    (lcc : Option LanguageCodeConfigs) (denv : DockerEnv)
    (req : ExecuteRequest) (tempDir cfn : Str) (evs : List (Str × Str))
    (rc : Str)
    (h1 : denv.mkdirTempResult = .ok tempDir)
    (h2 : denv.mkdirAllOk = true)
    (h3 : req.WorkdirTar = [] ∨ denv.extractOk = true)
    (h4 : GetCodeFileName req.Language = .ok cfn)
    (h5 : denv.writeCodeOk = true)
    (h6 : GetEnvironmentVariables langEnvs req.Language = .ok evs)
    (h7 : GetRunCommand req.Language = .ok rc)
    (h8 : denv.deadlineExceeded = true)
    (cfg2 : Config) (gcfg : GlobalConfig) (lenv : LocalEnv)
    (req2 : ExecuteRequest) (tempDir2 cfn2 : Str)
    (l1 : lenv.mkdirTempResult = .ok tempDir2)
    (l2 : lenv.mkdirAllOk = true)
    (l3 : req2.WorkdirTar = [] ∨ lenv.extractOk = true)
    (l4 : GetCodeFileName req2.Language = .ok cfn2)
    (l5 : lenv.writeCodeOk = true)
    (l6 : lenv.buildOk = true)
    (l7 : lenv.deadlineExceeded = true) :
    ((dockerExecute cfg langEnvs lc lcc denv req).result =
        .ok ⟨denv.runStdout,
          denv.runStderr ++ '\n' :: str (r"Execution timed out"), 1, []⟩ ∧
     (dockerExecute cfg langEnvs lc lcc denv req).stopAttempted = true ∧
     (dockerExecute cfg langEnvs lc lcc denv req).packaged = false) ∧
    ((localExecute cfg2 gcfg lenv req2).result =
        .ok ⟨lenv.runStdout,
          lenv.runStderr ++ '\n' :: str (r"Execution timed out"), 1, []⟩ ∧
     (localExecute cfg2 gcfg lenv req2).packaged = false) := by
  have hwt : (req.WorkdirTar ≠ [] ∧ ¬denv.extractOk = true) = False := by
    rcases h3 with h3 | h3 <;> simp [h3]
  have lwt : (req2.WorkdirTar ≠ [] ∧ ¬lenv.extractOk = true) = False := by
    rcases l3 with l3 | l3 <;> simp [l3]
  constructor
  · simp only [dockerExecute, h1, dockerExecuteBody, h2, hwt, h4, h5, h6, h7,
      h8, not_true, if_false, ite_false, if_true]
    simp
  · simp only [localExecute, l1, localExecuteBody, l2, lwt, l4, l5, l6,
      not_true, if_false, ite_false]
    rcases GetCodeFileName_ok_lang l4 with hl | hl | hl | hl
    all_goals
      simp [hl, localRunPhase, l7, LanguagePython, LanguageNodeJS,
        LanguageGo, LanguageCPP, str]

/-- Sample Docker oracle used by the witnesses: everything succeeds
and the deadline has expired. -/
def sampleDockerEnvTimeout : DockerEnv where
  mkdirTempResult := .ok (str (r"/tmp/t1"))
  mkdirAllOk := true
  extractOk := true
  writeCodeOk := true
  containerName := str (r"codebox-exec-1")
  runStdout := str (r"partial out")
  runStderr := str (r"partial err")
  runExitCode := 0
  runErr := none
  deadlineExceeded := true
  stopOk := true
  artifactsResult := fun _ => .ok []

/-- Sample local oracle used by the witnesses: everything succeeds and
the deadline has expired. -/
def sampleLocalEnvTimeout : LocalEnv where
  mkdirTempResult := .ok (str (r"/tmp/t2"))
  mkdirAllOk := true
  extractOk := true
  writeCodeOk := true
  buildOk := true
  buildErrMsg := []
  runStdout := str (r"pout")
  runStderr := str (r"perr")
  runErrKind := .noErr
  deadlineExceeded := true
  artifactsResult := fun _ => .ok []

/-- Sample request used by the witnesses. -/
def sampleRequest : ExecuteRequest where
  Language := str (r"python")
  Code := str (r"print(1)")
  WorkdirTar := []
  TimeoutSec := 30
  MemoryMB := 128
  Network := false

/-- Sample executor config used by the witnesses. -/
def sampleConfig : Config where
  TimeoutSec := 5
  MemoryMB := 256
  NetworkEnabled := false
  MaxArtifactSizeMB := 10

/-- C2 witness: both executors at the sample timed-out oracles. -/
theorem c2_timeout_result_witness :
    ((dockerExecute sampleConfig none none none sampleDockerEnvTimeout
        sampleRequest).result =
      .ok ⟨sampleDockerEnvTimeout.runStdout,
        sampleDockerEnvTimeout.runStderr ++
          '\n' :: str (r"Execution timed out"), 1, []⟩ ∧
     (dockerExecute sampleConfig none none none sampleDockerEnvTimeout
        sampleRequest).stopAttempted = true ∧
     (dockerExecute sampleConfig none none none sampleDockerEnvTimeout
        sampleRequest).packaged = false) ∧
    ((localExecute sampleConfig ⟨[]⟩ sampleLocalEnvTimeout
        sampleRequest).result =
      .ok ⟨sampleLocalEnvTimeout.runStdout,
        sampleLocalEnvTimeout.runStderr ++
          '\n' :: str (r"Execution timed out"), 1, []⟩ ∧
     (localExecute sampleConfig ⟨[]⟩ sampleLocalEnvTimeout
        sampleRequest).packaged = false) :=
  c2_timeout_result sampleConfig none none none sampleDockerEnvTimeout
    sampleRequest (str (r"/tmp/t1")) FilenamePython [] (str (r"python main.py"))
    rfl rfl (Or.inl rfl) rfl rfl rfl rfl rfl
    sampleConfig ⟨[]⟩ sampleLocalEnvTimeout sampleRequest
    (str (r"/tmp/t2")) FilenamePython
    rfl rfl (Or.inl rfl) rfl rfl rfl rfl

/-- C3: once the scratch temporary directory has been created, both
executors remove it before returning, on every path (the deferred
removal installed right after `MkdirTemp`). -/
theorem c3_unconditional_cleanup (cfg : Config)
    (langEnvs : Option LanguageEnvironments) (lc : Option LanguageConfigs)
    (lcc : Option LanguageCodeConfigs) (denv : DockerEnv)
    (req : ExecuteRequest) (tempDir : Str)
    (h : denv.mkdirTempResult = .ok tempDir)
    (cfg2 : Config) (gcfg : GlobalConfig) (lenv : LocalEnv)
    (req2 : ExecuteRequest) (tempDir2 : Str)
    (h2 : lenv.mkdirTempResult = .ok tempDir2) :
    (dockerExecute cfg langEnvs lc lcc denv req).cleanedUp = true ∧
    (localExecute cfg2 gcfg lenv req2).cleanedUp = true := by
  constructor
  · simp only [dockerExecute, h]
  · simp only [localExecute, h2]

/-- C3 witness: the sample oracles create their temp directories and
the outcomes report cleanup. -/
theorem c3_unconditional_cleanup_witness :
    (dockerExecute sampleConfig none none none sampleDockerEnvTimeout
      sampleRequest).cleanedUp = true ∧
    (localExecute sampleConfig ⟨[]⟩ sampleLocalEnvTimeout
      sampleRequest).cleanedUp = true :=
  c3_unconditional_cleanup sampleConfig none none none sampleDockerEnvTimeout
    sampleRequest (str (r"/tmp/t1")) rfl
    sampleConfig ⟨[]⟩ sampleLocalEnvTimeout sampleRequest
    (str (r"/tmp/t2")) rfl

/-- C6: when the packaged artifact archive strictly exceeds
`MaxArtifactSizeMB * 1024 * 1024` bytes, both executors return a
size-limit error carrying the sizes and no artifact payload; when it
is within the limit, no size-limit error occurs and the archive is
returned in the result. -/
theorem c6_artifact_size_cap (cfg : Config)
    (langEnvs : Option LanguageEnvironments) (lc : Option LanguageConfigs)
    (lcc : Option LanguageCodeConfigs) (denv : DockerEnv)
    (req : ExecuteRequest) (tempDir cfn : Str) (evs : List (Str × Str))
    (rc : Str) (a : List UInt8)
    (h1 : denv.mkdirTempResult = .ok tempDir)
    (h2 : denv.mkdirAllOk = true)
    (h3 : req.WorkdirTar = [] ∨ denv.extractOk = true)
    (h4 : GetCodeFileName req.Language = .ok cfn)
    (h5 : denv.writeCodeOk = true)
    (h6 : GetEnvironmentVariables langEnvs req.Language = .ok evs)
    (h7 : GetRunCommand req.Language = .ok rc)
    (h8 : denv.deadlineExceeded = false)
    (h9 : denv.runErr = none)
    (h10 : denv.artifactsResult (dockerExcludePatterns lc req.Language) =
      .ok a)
    (cfg2 : Config) (gcfg : GlobalConfig) (lenv : LocalEnv)
    (req2 : ExecuteRequest) (tempDir2 cfn2 : Str) (b : List UInt8)
    (l1 : lenv.mkdirTempResult = .ok tempDir2)
    (l2 : lenv.mkdirAllOk = true)
    (l3 : req2.WorkdirTar = [] ∨ lenv.extractOk = true)
    (l4 : GetCodeFileName req2.Language = .ok cfn2)
    (l5 : lenv.writeCodeOk = true)
    (l6 : lenv.buildOk = true)
    (l7 : lenv.deadlineExceeded = false)
    (l8 : lenv.runErrKind = RunErrKind.noErr)
    (l9 : lenv.artifactsResult (localExcludePatterns gcfg req2.Language) =
      .ok b) :
    (((a.length : Int) > cfg.MaxArtifactSizeMB * 1024 * 1024 →
      (dockerExecute cfg langEnvs lc lcc denv req).result =
        .error (.artifactsTooLarge a.length
          (cfg.MaxArtifactSizeMB * MaxArtifactSizeMul))) ∧
     ((a.length : Int) ≤ cfg.MaxArtifactSizeMB * 1024 * 1024 →
      (dockerExecute cfg langEnvs lc lcc denv req).result =
        .ok ⟨denv.runStdout, denv.runStderr, denv.runExitCode, a⟩)) ∧
    (((b.length : Int) > cfg2.MaxArtifactSizeMB * 1024 * 1024 →
      (localExecute cfg2 gcfg lenv req2).result =
        .error (.artifactsTooLarge b.length
          (cfg2.MaxArtifactSizeMB * MaxArtifactSizeMul))) ∧
     ((b.length : Int) ≤ cfg2.MaxArtifactSizeMB * 1024 * 1024 →
      (localExecute cfg2 gcfg lenv req2).result =
        .ok ⟨lenv.runStdout, lenv.runStderr, 0, b⟩)) := by
  have hwt : (req.WorkdirTar ≠ [] ∧ ¬denv.extractOk = true) = False := by
    rcases h3 with h3 | h3 <;> simp [h3]
  have lwt : (req2.WorkdirTar ≠ [] ∧ ¬lenv.extractOk = true) = False := by
    rcases l3 with l3 | l3 <;> simp [l3]
  constructor
  · constructor
    · intro hgt
      simp only [dockerExecute, h1, dockerExecuteBody, h2, hwt, h4, h5, h6,
        h7, h8, h9, h10, not_true, if_false, ite_false]
      simp [if_pos hgt]
    · intro hle
      simp only [dockerExecute, h1, dockerExecuteBody, h2, hwt, h4, h5, h6,
        h7, h8, h9, h10, not_true, if_false, ite_false]
      simp [if_neg (not_lt.mpr hle)]
  · have lphase : localRunPhase cfg2 gcfg lenv req2 =
        (if (b.length : Int) > cfg2.MaxArtifactSizeMB * 1024 * 1024 then
          ⟨.error (.artifactsTooLarge b.length
              (cfg2.MaxArtifactSizeMB * MaxArtifactSizeMul)),
            false, true, cfg2.TimeoutSec⟩
        else
          ⟨.ok ⟨lenv.runStdout, lenv.runStderr, 0, b⟩, false, true,
            cfg2.TimeoutSec⟩) := by
      rw [localRunPhase, if_neg (by rw [l7]; simp)]
      rw [l8]
      simp only [l9]
    constructor
    · intro hgt
      simp only [localExecute, l1, localExecuteBody, l2, lwt, l4, l5, l6,
        not_true, if_false, ite_false]
      rcases GetCodeFileName_ok_lang l4 with hl | hl | hl | hl
      all_goals
        simp [hl, lphase, if_pos hgt, LanguagePython, LanguageNodeJS,
          LanguageGo, LanguageCPP, str]
    · intro hle
      simp only [localExecute, l1, localExecuteBody, l2, lwt, l4, l5, l6,
        not_true, if_false, ite_false]
      rcases GetCodeFileName_ok_lang l4 with hl | hl | hl | hl
      all_goals
        simp [hl, lphase, if_neg (not_lt.mpr hle), LanguagePython,
          LanguageNodeJS, LanguageGo, LanguageCPP, str]

/-- Sample Docker oracle for the size-cap witness: the run succeeds
and packaging yields two bytes. -/
def sampleDockerEnvSized : DockerEnv :=
  { sampleDockerEnvTimeout with
      deadlineExceeded := false
      artifactsResult := fun _ => .ok [3, 4] }

/-- Sample local oracle for the size-cap witness. -/
def sampleLocalEnvSized : LocalEnv :=
  { sampleLocalEnvTimeout with
      deadlineExceeded := false
      artifactsResult := fun _ => .ok [9] }

/-- C6 witness: with a 10 MB cap, the two-byte archive is returned and
no size-limit error occurs (the within-limit branch of the claim),
while the over-limit branch holds vacuously at this input. -/
theorem c6_artifact_size_cap_witness :
    ((((([3, 4] : List UInt8).length : Int) >
        sampleConfig.MaxArtifactSizeMB * 1024 * 1024 →
      (dockerExecute sampleConfig none none none sampleDockerEnvSized
        sampleRequest).result =
        .error (.artifactsTooLarge ([3, 4] : List UInt8).length
          (sampleConfig.MaxArtifactSizeMB * MaxArtifactSizeMul))) ∧
     ((([3, 4] : List UInt8).length : Int) ≤
        sampleConfig.MaxArtifactSizeMB * 1024 * 1024 →
      (dockerExecute sampleConfig none none none sampleDockerEnvSized
        sampleRequest).result =
        .ok ⟨sampleDockerEnvSized.runStdout, sampleDockerEnvSized.runStderr,
          sampleDockerEnvSized.runExitCode, [3, 4]⟩)) ∧
    (((([9] : List UInt8).length : Int) >
        sampleConfig.MaxArtifactSizeMB * 1024 * 1024 →
      (localExecute sampleConfig ⟨[]⟩ sampleLocalEnvSized
        sampleRequest).result =
        .error (.artifactsTooLarge ([9] : List UInt8).length
          (sampleConfig.MaxArtifactSizeMB * MaxArtifactSizeMul))) ∧
     ((([9] : List UInt8).length : Int) ≤
        sampleConfig.MaxArtifactSizeMB * 1024 * 1024 →
      (localExecute sampleConfig ⟨[]⟩ sampleLocalEnvSized
        sampleRequest).result =
        .ok ⟨sampleLocalEnvSized.runStdout, sampleLocalEnvSized.runStderr,
          0, [9]⟩))) :=
  c6_artifact_size_cap sampleConfig none none none sampleDockerEnvSized
    sampleRequest (str (r"/tmp/t1")) FilenamePython [] (str (r"python main.py"))
    [3, 4] rfl rfl (Or.inl rfl) rfl rfl rfl rfl rfl rfl rfl
    sampleConfig ⟨[]⟩ sampleLocalEnvSized sampleRequest
    (str (r"/tmp/t2")) FilenamePython [9]
    rfl rfl (Or.inl rfl) rfl rfl rfl rfl rfl rfl

/-- C10: the per-request `TimeoutSec`, `MemoryMB` and `Network` fields
are never read by either executor: two requests differing only in
those fields produce identical outcomes (result, cleanup, stop,
packaging, the constructed command line, and the timeout installed on
the context, which both come from the executor's static config). -/
theorem c10_request_resource_fields_inert (cfg : Config)
    (langEnvs : Option LanguageEnvironments) (lc : Option LanguageConfigs)
    (lcc : Option LanguageCodeConfigs) (denv : DockerEnv)
    (gcfg : GlobalConfig) (lenv : LocalEnv) (req : ExecuteRequest)
    (t m : Int) (n : Bool) :
    dockerExecute cfg langEnvs lc lcc denv
      { req with TimeoutSec := t, MemoryMB := m, Network := n } =
      dockerExecute cfg langEnvs lc lcc denv req ∧
    localExecute cfg gcfg lenv
      { req with TimeoutSec := t, MemoryMB := m, Network := n } =
      localExecute cfg gcfg lenv req := by
  cases req
  exact ⟨rfl, rfl⟩

/-- C9: extraction of an empty archive is a no-op that succeeds, and
creation from an empty directory yields the empty entry stream (the
minimal valid archive). -/
theorem c9_zero_length_robustness :
    (∀ destDir : Str, extractTarToDir destDir [] = ([], none)) ∧
    (∀ pats : List Str, createTarFromDirWithExcludes FsForest.nil pats = []) ∧
    (∀ destDir : Str,
      extractTarToDir destDir (createTarFromDir FsForest.nil) = ([], none)) :=
  ⟨fun _ => rfl, fun _ => rfl, fun _ => rfl⟩

/-- C4: for every relative path `p` and every pattern ending in a path
separator, `shouldExcludeFile` with that single pattern returns true
exactly when `p` equals the pattern with the separator stripped, or
`p` starts with that directory name followed by a separator, or the
directory name occurs as one full path segment anywhere in `p`. -/
theorem c4_directory_pattern_semantics (p pat : Str)
    (h : hasSuffixSl pat ['/'] = true) :
    shouldExcludeFile p [pat] =
      ((p == trimSuffixSl pat ['/']) ||
       hasPrefixSl p (trimSuffixSl pat ['/'] ++ ['/']) ||
       (splitSl p).contains (trimSuffixSl pat ['/'])) := by
  simp [shouldExcludeFile, patternExcludes, h]

/-- C4 witness: the directory pattern excludes a file directly under
the directory and a file under a nested occurrence of the directory. -/
theorem c4_directory_pattern_semantics_witness :
    hasSuffixSl (str (r"node_modules/")) ['/'] = true ∧
    (shouldExcludeFile (str (r"node_modules/x.js")) [str (r"node_modules/")] =
      ((str (r"node_modules/x.js") == trimSuffixSl (str (r"node_modules/")) ['/']) ||
       hasPrefixSl (str (r"node_modules/x.js"))
         (trimSuffixSl (str (r"node_modules/")) ['/'] ++ ['/']) ||
       (splitSl (str (r"node_modules/x.js"))).contains
         (trimSuffixSl (str (r"node_modules/")) ['/']))) ∧
    shouldExcludeFile (str (r"node_modules/x.js")) [str (r"node_modules/")] = true ∧
    shouldExcludeFile (str (r"frontend/node_modules/x.js")) [str (r"node_modules/")] = true :=
  ⟨by decide,
   c4_directory_pattern_semantics (str (r"node_modules/x.js")) (str (r"node_modules/"))
     (by decide),
   by decide, by decide⟩

/-- C7: a bare pattern equal to a conventional directory name does not
exclude a same-named file, but the same pattern with a trailing
separator does. -/
theorem c7_common_dir_tie_break (pat : Str)
    (h : isCommonDirectoryName pat = true) :
    shouldExcludeFile pat [pat] = false ∧
    shouldExcludeFile pat [pat ++ ['/']] = true := by
  have hs : hasSuffixSl pat ['/'] = false := by
    simp only [isCommonDirectoryName, Bool.or_eq_true, beq_iff_eq] at h
    rcases h with (((((((((((h|h)|h)|h)|h)|h)|h)|h)|h)|h)|h)|h) <;>
      subst h <;> decide
  have hsfx : hasSuffixSl (pat ++ ['/']) ['/'] = true := by
    simp only [hasSuffixSl, List.isSuffixOf_iff_suffix]
    exact List.suffix_append pat ['/']
  have htrim : trimSuffixSl (pat ++ ['/']) ['/'] = pat := by
    simp [trimSuffixSl, hsfx]
  have hne : (pat == pat ++ ['/']) = false := by
    simp only [beq_eq_false_iff_ne, ne_eq]
    intro hcontra
    have := congrArg List.length hcontra
    simp at this
  constructor
  · simp only [shouldExcludeFile, List.any_cons, List.any_nil, Bool.or_false,
      patternExcludes]
    rw [if_pos (by rw [hs, h]; simp)]
  · simp only [shouldExcludeFile, List.any_cons, List.any_nil, Bool.or_false,
      patternExcludes]
    rw [if_neg (by rw [hne]; simp), if_pos hsfx, htrim]
    simp

/-- C7 witness at the pattern `node_modules`. -/
theorem c7_common_dir_tie_break_witness :
    isCommonDirectoryName (str (r"node_modules")) = true ∧
    (shouldExcludeFile (str (r"node_modules")) [str (r"node_modules")] = false ∧
     shouldExcludeFile (str (r"node_modules")) [str (r"node_modules") ++ ['/']] = true) :=
  ⟨by decide, c7_common_dir_tie_break (str (r"node_modules")) (by decide)⟩

/-- C8: a pattern without a trailing separator (outside the
common-directory tie-break) is matched as a glob against the base name
and against the full relative path, either match excluding, and a
malformed pattern contributes no match (so exclusion falls open to
inclusion). -/
theorem c8_glob_pattern_semantics (p pat : Str)
    (h1 : hasSuffixSl pat ['/'] = false)
    (h2 : ¬(p = pat ∧ isCommonDirectoryName pat = true)) :
    shouldExcludeFile p [pat] =
      (matchOrFalse pat (goBase p) || matchOrFalse pat p) ∧
    (∀ e1 e2 : Unit, goMatch pat (goBase p) = .error e1 →
      goMatch pat p = .error e2 → shouldExcludeFile p [pat] = false) := by
  have hcond : (p == pat && !(hasSuffixSl pat ['/']) &&
      isCommonDirectoryName pat) = false := by
    by_cases hp : p = pat
    · by_cases hc : isCommonDirectoryName pat = true
      · exact absurd ⟨hp, hc⟩ h2
      · simp [Bool.eq_false_iff.mpr hc]
    · simp [beq_eq_false_iff_ne.mpr hp]
  have hmain : shouldExcludeFile p [pat] =
      (matchOrFalse pat (goBase p) || matchOrFalse pat p) := by
    simp only [shouldExcludeFile, List.any_cons, List.any_nil, Bool.or_false,
      patternExcludes]
    rw [if_neg (by rw [hcond]; simp), if_neg (by rw [h1]; simp)]
  refine ⟨hmain, ?_⟩
  intro e1 e2 he1 he2
  rw [hmain]
  simp [matchOrFalse, he1, he2]

/-- C8 witness: the glob `*.pyc` excludes `a/b.pyc` through its base
name, and the malformed glob `a[` excludes nothing. -/
theorem c8_glob_pattern_semantics_witness :
    (hasSuffixSl (str (r"*.pyc")) ['/'] = false ∧
     ¬(str (r"a/b.pyc") = str (r"*.pyc") ∧
        isCommonDirectoryName (str (r"*.pyc")) = true) ∧
     (shouldExcludeFile (str (r"a/b.pyc")) [str (r"*.pyc")] =
        (matchOrFalse (str (r"*.pyc")) (goBase (str (r"a/b.pyc"))) ||
         matchOrFalse (str (r"*.pyc")) (str (r"a/b.pyc"))) ∧
      (∀ e1 e2 : Unit,
        goMatch (str (r"*.pyc")) (goBase (str (r"a/b.pyc"))) = .error e1 →
        goMatch (str (r"*.pyc")) (str (r"a/b.pyc")) = .error e2 →
        shouldExcludeFile (str (r"a/b.pyc")) [str (r"*.pyc")] = false))) ∧
    shouldExcludeFile (str (r"a/b.pyc")) [str (r"*.pyc")] = true ∧
    shouldExcludeFile (str (r"a")) [str (r"a[")] = false :=
  ⟨⟨by decide, by decide,
    c8_glob_pattern_semantics (str (r"a/b.pyc")) (str (r"*.pyc"))
      (by decide) (by decide)⟩,
   by
    rw [(c8_glob_pattern_semantics (str (r"a/b.pyc")) (str (r"*.pyc"))
      (by decide) (by decide)).1]
    simp [matchOrFalse, str, goBase, goMatch, scanChunk, scanBody, matchChunk,
      parseClass, getEsc, starLoop, validateRest],
   by
    refine (c8_glob_pattern_semantics (str (r"a")) (str (r"a["))
      (by decide) (by decide)).2 () () ?_ ?_ <;>
      simp [str, goBase, goMatch, scanChunk, scanBody, matchChunk,
        parseClass, getEsc, starLoop, validateRest]⟩

end Codebox
